import Mathlib

/-!
# Verification of the legal-document RAG retrieval-context pipeline

Shallow embedding of the core modules of the repository:

* `legal_rag/core/llmlingua_compressor.py` — citation protection/restoration,
  the model-delegating compressor (`LLMLinguaCompressor`) and the extractive
  fallback (`SimpleFallbackCompressor`);
* `legal_rag/core/chunker.py` and `src/document_processor/chunker.py` — the
  two document chunkers;
* `legal_rag/core/legal_rag.py` — the query orchestrator (`LegalRAGEngine`).

Python strings are embedded as `List Char` (`Str`); Python `int` as `ℕ`/`ℤ`
(all quantities here are sizes/counts, with the deviations noted inline);
Python `float` as `ℚ` (exact rational arithmetic; the float values occurring
in the verified properties are small dyadic/decimal constants).  Python
exceptions are embedded with `Except`.  The external services (the LLMLingua
model, the vector store, the OpenAI generation call) are parameters of the
definitions, universally quantified in the theorems.
-/

set_option maxRecDepth 4096

/-- Python `str` as a list of characters. -/
abbrev Str := List Char

/-! ## Basic Python string operations -/

/-- Python `str.strip()`: drop leading and trailing whitespace.
(Lean's `Char.isWhitespace` covers the ASCII whitespace that occurs here.) -/
def pyStrip (s : Str) : Str :=
  ((s.dropWhile Char.isWhitespace).reverse.dropWhile Char.isWhitespace).reverse

/-- Python `sep.join(parts)`. -/
def pyJoin (sep : Str) (parts : List Str) : Str :=
  List.intercalate sep parts

/-- Python `str.lower()` (ASCII-faithful). -/
def pyLower (s : Str) : Str := s.map Char.toLower

/-- Python substring test `needle in hay`. -/
def containsSub (needle : Str) : Str → Bool
  | [] => needle.isPrefixOf []
  | c :: t => needle.isPrefixOf (c :: t) || containsSub needle t

/-- Python `s[-n:]` for `n > 0`: the last `min n (len s)` characters. -/
def pyTakeRight (s : Str) (n : ℕ) : Str := s.drop (s.length - n)

/-- Python `str.split()` with no argument: split on whitespace runs,
returning no empty pieces.  `acc` holds the current word reversed. -/
def pySplitWsAux : Str → Str → List Str
  | [], acc => if acc = [] then [] else [acc.reverse]
  | c :: t, acc =>
    if c.isWhitespace then
      if acc = [] then pySplitWsAux t [] else acc.reverse :: pySplitWsAux t []
    else pySplitWsAux t (c :: acc)

/-- Python `str.split()` (no separator argument). -/
def pySplitWs (s : Str) : List Str := pySplitWsAux s []

/-- Python `str.split(sep)` for a non-empty separator, fuelled (fuel is
consumed one unit per character examined, so `s.length + 1` always suffices).
`acc` holds the current piece reversed. -/
def pySplitOnSubF (sep : Str) : ℕ → Str → Str → List Str
  | 0, s, acc => [(s.reverse ++ acc).reverse]
  | _ + 1, [], acc => [acc.reverse]
  | fuel + 1, c :: t, acc =>
    if sep.isPrefixOf (c :: t) && !sep.isEmpty then
      acc.reverse :: pySplitOnSubF sep fuel ((c :: t).drop sep.length) []
    else pySplitOnSubF sep fuel t (c :: acc)

/-- Python `str.split(sep)` with an explicit separator: split on every
occurrence, keeping empty pieces. -/
def pySplitOnSub (sep : Str) (s : Str) : List Str :=
  pySplitOnSubF sep (s.length + 1) s []

/-- Decimal digit character. -/
def digitChar (d : ℕ) : Char := Char.ofNat (48 + d)

/-- Fuelled decimal representation (`n + 1` fuel always suffices). -/
def natDigitsF : ℕ → ℕ → List Char
  | 0, _ => []
  | fuel + 1, n =>
    if n < 10 then [digitChar n] else natDigitsF fuel (n / 10) ++ [digitChar (n % 10)]

/-- Python `str(n)` for a non-negative integer: decimal digits. -/
def natDigits (n : ℕ) : List Char := natDigitsF (n + 1) n

/-- Python `str.replace(old, new, 1)`: replace the first occurrence only
(identity if `old` is empty or absent — the sources never pass an empty
`old`). -/
def replFirst (pat rep : Str) : Str → Str
  | [] => []
  | c :: s =>
    if pat.isPrefixOf (c :: s) && !pat.isEmpty then rep ++ (c :: s).drop pat.length
    else c :: replFirst pat rep s

/-- Fuelled body of Python `str.replace(old, new)`: replace all occurrences,
left to right, non-overlapping.  One unit of fuel per character of the input
suffices since every step strictly shortens the string. -/
def replAllF (pat rep : Str) : ℕ → Str → Str
  | 0, s => s
  | _ + 1, [] => []
  | fuel + 1, c :: s =>
    if pat.isPrefixOf (c :: s) && !pat.isEmpty then
      rep ++ replAllF pat rep fuel ((c :: s).drop pat.length)
    else c :: replAllF pat rep fuel s

/-- Python `str.replace(old, new)` (all occurrences, identity for empty
`old`, which the sources never pass). -/
def replAll (pat rep : Str) (s : Str) : Str := replAllF pat rep s.length s

/-! ## A small regular-expression engine

Only the constructs used by the source patterns are embedded: literal
characters, single-character classes, greedy `*` over a class, and a greedy
optional literal (`d?`).  `X+` is embedded as `X X*`, which has the same
language and the same greedy/backtracking preference order as Python `re`.
Matching follows Python `re` semantics for these patterns: leftmost match,
greedy repetition with backtracking. -/

inductive RAtom where
  | lit (c : Char)
  | one (p : Char → Bool)
  | star (p : Char → Bool)
  | opt (c : Char)

abbrev Pattern := List RAtom

/-- Backtracking helper for greedy `star`: `revRun` is the (reversed) portion
of the maximal class run still consumed; try the continuation `k` on the
rest, and on failure give back one consumed character at a time. -/
def tryBack (k : Str → Option (Str × Str)) : Str → Str → Option (Str × Str)
  | revRun, rest =>
    match k rest with
    | some (m, r) => some (revRun.reverse ++ m, r)
    | none =>
      match revRun with
      | [] => none
      | c :: revRun' => tryBack k revRun' (c :: rest)

/-- Match a pattern at the start of a string, returning
`(consumed, remainder)` for the preferred (leftmost-greedy) parse. -/
def matchAtoms : Pattern → Str → Option (Str × Str)
  | [], s => some ([], s)
  | .lit _ :: _, [] => none
  | .lit c :: as, d :: s =>
    if d = c then
      match matchAtoms as s with
      | some (m, r) => some (d :: m, r)
      | none => none
    else none
  | .one _ :: _, [] => none
  | .one p :: as, d :: s =>
    if p d then
      match matchAtoms as s with
      | some (m, r) => some (d :: m, r)
      | none => none
    else none
  | .star p :: as, s => tryBack (matchAtoms as) (s.takeWhile p).reverse (s.dropWhile p)
  | .opt _ :: as, [] => matchAtoms as []
  | .opt c :: as, d :: s =>
    if d = c then
      match matchAtoms as s with
      | some (m, r) => some (d :: m, r)
      | none => matchAtoms as (d :: s)
    else matchAtoms as (d :: s)

/-- Fuelled body of `re.finditer`: scan left to right, collecting
non-overlapping matches (advancing one character past an empty match, which
the source patterns cannot produce anyway). -/
def finditerF (pat : Pattern) : ℕ → Str → List Str
  | 0, _ => []
  | fuel + 1, s =>
    match matchAtoms pat s with
    | some (m, r) =>
      if m.isEmpty then finditerF pat fuel s.tail
      else m :: finditerF pat fuel r
    | none =>
      if s.isEmpty then [] else finditerF pat fuel s.tail

/-- `re.finditer(pat, s)`, as the list of matched substrings (the sources
only use `match.group()`). -/
def finditer (pat : Pattern) (s : Str) : List Str := finditerF pat (s.length + 1) s

/-- `re.search(pat, s) is not None`. -/
def reSearch (pat : Pattern) : Str → Bool
  | [] => (matchAtoms pat []).isSome
  | c :: t => (matchAtoms pat (c :: t)).isSome || reSearch pat t

/-- `X+` as `X X*` (same language and preference order). -/
def rplus (p : Char → Bool) : Pattern := [.one p, .star p]

/-- A sequence of literal characters. -/
def rlits (s : Str) : Pattern := s.map .lit

/-! ## `legal_rag/core/llmlingua_compressor.py` -/

/-- Result of prompt compression (`CompressionResult`). -/
structure CompressionResult where
  compressed_text : Str
  original_tokens : ℕ
  compressed_tokens : ℕ
  compression_ratio : ℚ
  preserved_citations : List Str
deriving DecidableEq, Repr

/-- `LLMLinguaCompressor.LEGAL_PRESERVE_TERMS`. -/
def LEGAL_PRESERVE_TERMS : List Str :=
  ["holding", "held", "affirmed", "reversed", "remanded",
   "plaintiff", "defendant", "appellant", "appellee",
   "judgment", "order", "motion", "petition", "writ",
   "statute", "regulation", "constitutional", "amendment",
   "precedent", "stare decisis", "ratio decidendi",
   "obiter dictum", "prima facie", "de facto", "de jure"].map String.data

/-- `LLMLinguaCompressor.CITATION_PATTERNS`, in source order.
(The section sign in the source file is the two-character mojibake sequence
`ยง`, which is embedded verbatim.) -/
def CITATION_PATTERNS : List Pattern :=
  [ -- r'\d+\s+U\.S\.\s+\d+'  (US Reports)
    rplus Char.isDigit ++ rplus Char.isWhitespace ++ rlits "U.S.".data ++
      rplus Char.isWhitespace ++ rplus Char.isDigit,
    -- r'\d+\s+S\.\s*Ct\.\s+\d+'  (Supreme Court Reporter)
    rplus Char.isDigit ++ rplus Char.isWhitespace ++ rlits "S.".data ++
      [.star Char.isWhitespace] ++ rlits "Ct.".data ++ rplus Char.isWhitespace ++
      rplus Char.isDigit,
    -- r'\d+\s+F\.\d+d\s+\d+'  (Federal Reporter)
    rplus Char.isDigit ++ rplus Char.isWhitespace ++ rlits "F.".data ++
      rplus Char.isDigit ++ [.lit 'd'] ++ rplus Char.isWhitespace ++ rplus Char.isDigit,
    -- r'\d+\s+F\.\s*Supp\.\s*\d*d?\s+\d+'  (Federal Supplement)
    rplus Char.isDigit ++ rplus Char.isWhitespace ++ rlits "F.".data ++
      [.star Char.isWhitespace] ++ rlits "Supp.".data ++ [.star Char.isWhitespace] ++
      [.star Char.isDigit, .opt 'd'] ++ rplus Char.isWhitespace ++ rplus Char.isDigit,
    -- r'[A-Z][a-z]+\s+v\.\s+[A-Z][a-z]+'  (case names)
    [.one Char.isUpper] ++ rplus Char.isLower ++ rplus Char.isWhitespace ++
      rlits "v.".data ++ rplus Char.isWhitespace ++ [.one Char.isUpper] ++
      rplus Char.isLower,
    -- r'\d+\s+U\.S\.C\.\s+ยง\s*\d+'  (USC citations)
    rplus Char.isDigit ++ rplus Char.isWhitespace ++ rlits "U.S.C.".data ++
      rplus Char.isWhitespace ++ rlits "ยง".data ++ [.star Char.isWhitespace] ++
      rplus Char.isDigit,
    -- r'\d+\s+C\.F\.R\.\s+ยง\s*\d+'  (CFR citations)
    rplus Char.isDigit ++ rplus Char.isWhitespace ++ rlits "C.F.R.".data ++
      rplus Char.isWhitespace ++ rlits "ยง".data ++ [.star Char.isWhitespace] ++
      rplus Char.isDigit ]

/-- The placeholder token `f"__CITATION_{i}_{j}__"`. -/
def placeholder (i j : ℕ) : Str :=
  "__CITATION_".data ++ natDigits i ++ "_".data ++ natDigits j ++ "__".data

/-- Inner loop of `_protect_citations` for one pattern: `ms` are the matches
of pattern `i` (computed over the text as it stood when the pattern's scan
began — `re.finditer` is bound to that string value), `j` the running match
index.  Each match is recorded in the citation map and its first remaining
occurrence replaced by the placeholder.  Returns the new text and the map
entries `(placeholder, citation)` in insertion order. -/
def protectInner (i : ℕ) : List Str → ℕ → Str → Str × List (Str × Str)
  | [], _, t => (t, [])
  | c :: ms, j, t =>
    let p := placeholder i j
    let t' := replFirst c p t
    let (t'', entries) := protectInner i ms (j + 1) t'
    (t'', (p, c) :: entries)

/-- Outer loop of `_protect_citations` over the pattern list (with running
pattern index `i`). -/
def protectLoop : List Pattern → ℕ → Str → Str × List (Str × Str)
  | [], _, t => (t, [])
  | pat :: pats, i, t =>
    let ms := finditer pat t
    let (t', entries) := protectInner i ms 0 t
    let (t'', entries') := protectLoop pats (i + 1) t'
    (t'', entries ++ entries')

/-- `LLMLinguaCompressor._protect_citations`: replace citations with
placeholders; the returned map (a Python dict, i.e. an insertion-ordered
association list) sends each placeholder to its citation. -/
def protect_citations (text : Str) : Str × List (Str × Str) :=
  protectLoop CITATION_PATTERNS 0 text

/-- `LLMLinguaCompressor._restore_citations`: substitute every placeholder
of the map (all occurrences, in map order) by its citation. -/
def restore_citations (text : Str) (citation_map : List (Str × Str)) : Str :=
  citation_map.foldl (fun t e => replAll e.1 e.2 t) text

/-- `LLMLinguaCompressor._extract_citations`.  Python wraps the collected
matches in `list(set(...))`, whose order is implementation-defined; it is
embedded as first-occurrence deduplication. -/
def extract_citations (text : Str) : List Str :=
  ((CITATION_PATTERNS.map (fun pat => finditer pat text)).flatten).dedup

/-- `_estimate_tokens`: `len(text) // 4`. -/
def estimate_tokens (text : Str) : ℕ := text.length / 4

/-- `LLMLinguaCompressor` (the fields that participate in `compress` /
`compress_chunks`; `model_name` and `use_gpu` only configure the external
model and are carried inertly). -/
structure LLMLinguaCompressor where
  model_name : Str
  target_ratio : ℚ
  force_tokens : List Str
  use_gpu : Bool

/-- The external LLMLingua model service
(`PromptCompressor.compress_prompt`), as a parameter:
`(context, question?, rate, force_tokens) ↦ result.get("compressed_prompt")`.
`drop_consecutive=True` is part of the model's behaviour.  A `none` result
models a response dict without the `"compressed_prompt"` key, for which the
source falls back to the protected text. -/
abbrev ModelFn := Str → Option Str → ℚ → List Str → Option Str

/-- `LLMLinguaCompressor.compress`.  The query-aware and standard branches
differ only in whether `question` is passed to the model, so they are
embedded as a single call with an optional question. -/
def LLMLinguaCompressor.compress (self : LLMLinguaCompressor) (modelFn : ModelFn)
    (text : Str) (query : Option Str) (preserve_citations : Bool) : CompressionResult :=
  let preserved_citations := if preserve_citations then extract_citations text else []
  let force_tokens := self.force_tokens ++ LEGAL_PRESERVE_TERMS
  let (protected_text, citation_map) := protect_citations text
  let original_tokens := estimate_tokens text
  let modelOut := (modelFn protected_text query self.target_ratio force_tokens).getD protected_text
  let compressed_text := restore_citations modelOut citation_map
  let compressed_tokens := estimate_tokens compressed_text
  let compression_ratio : ℚ :=
    if original_tokens > 0 then (compressed_tokens : ℚ) / (original_tokens : ℚ) else 1
  { compressed_text, original_tokens, compressed_tokens, compression_ratio,
    preserved_citations }

/-- A retrieved chunk as the compressor and engine see it: a dict with
`content` and a metadata dict (optional string fields, `dict.get`
semantics). -/
structure RetrievedChunk where
  content : Str
  filename : Option Str
  case_name : Option Str
  court : Option Str
  sectionKey : Option Str  -- the "section" metadata key (`section` is a Lean keyword)
deriving DecidableEq

/-- The combined context built by `compress_chunks`:
`"\n\n---\n\n".join(f"[Source: {filename or 'Unknown'}]\n{content}")`. -/
def combineChunks (chunks : List RetrievedChunk) : Str :=
  pyJoin "\n\n---\n\n".data
    (chunks.map fun c =>
      "[Source: ".data ++ (c.filename.getD "Unknown".data) ++ "]".data ++ ['\n'] ++ c.content)

/-- `LLMLinguaCompressor.compress_chunks`.  The source temporarily mutates
`self.target_ratio`; the embedding threads the state explicitly and returns
the compressed context together with the compressor state after the call. -/
def LLMLinguaCompressor.compress_chunks (self : LLMLinguaCompressor) (modelFn : ModelFn)
    (chunks : List RetrievedChunk) (query : Str) (max_output_tokens : ℕ) :
    Str × LLMLinguaCompressor :=
  let combined_text := combineChunks chunks
  let current_tokens := estimate_tokens combined_text
  let required_ratio : ℚ :=
    if current_tokens > 0 then min ((max_output_tokens : ℚ) / (current_tokens : ℚ)) 1 else 1
  let original_ratio := self.target_ratio
  let self' :=
    if required_ratio < self.target_ratio then
      { self with target_ratio := required_ratio * (9 / 10) }  -- 10% buffer
    else self
  let result := self'.compress modelFn combined_text (some query) true
  let self'' := { self' with target_ratio := original_ratio }
  (result.compressed_text, self'')

/-! ### `SimpleFallbackCompressor` -/

/-- Insertion into a sorted list (for the total order used below). -/
def insSortInsert (le : α → α → Bool) (x : α) : List α → List α
  | [] => [x]
  | y :: ys => if le x y then x :: y :: ys else y :: insSortInsert le x ys

/-- Insertion sort.  For a total order this produces the unique sorted
permutation, hence agrees with Python's `list.sort`. -/
def insSort (le : α → α → Bool) : List α → List α
  | [] => []
  | x :: xs => insSortInsert le x (insSort le xs)

/-- Python `int()` on a rational: truncation toward zero. -/
def pytrunc (q : ℚ) : ℤ := if 0 ≤ q then ⌊q⌋ else ⌈q⌉

/-- Sentence-boundary split `re.split(r'(?<=[.!?])\s+', text)`, walked
structurally: `inSep` records whether we are inside a separator whitespace
run, `prev` is the previous character of the original text (any non-`[.!?]`
character stands for "no previous character" at position 0 and for the
whitespace characters of a consumed run — only membership in `[.!?]`
matters), `acc` the current piece reversed. -/
def splitSentAux : Bool → Char → Str → Str → List Str
  | _, _, [], acc => [acc.reverse]
  | true, _, c :: rest, acc =>
    if c.isWhitespace then splitSentAux true c rest acc
    else splitSentAux false c rest [c]
  | false, prev, c :: rest, acc =>
    if c.isWhitespace && (prev = '.' || prev = '!' || prev = '?') then
      acc.reverse :: splitSentAux true c rest []
    else splitSentAux false c rest (c :: acc)

/-- `_split_sentences` — shared verbatim by `SimpleFallbackCompressor` and
`LegalChunker` (`legal_rag/core/chunker.py`):
`re.split(r'(?<=[.!?])\s+', text)` then strip and drop empties. -/
def split_sentences (text : Str) : List Str :=
  ((splitSentAux false ' ' text []).map pyStrip).filter (· ≠ [])

/-- The fixed legal-term set of `SimpleFallbackCompressor._score_sentence`. -/
def fallbackLegalTerms : List Str :=
  ["court", "held", "holding", "plaintiff", "defendant",
   "judgment", "ruling", "statute", "precedent", "affirm"].map String.data

/-- The generic citation pattern of `_score_sentence`:
r'\d+\s+[A-Z][a-z]*\.\s*\d*d?\s+\d+'. -/
def scoreCitePat : Pattern :=
  rplus Char.isDigit ++ rplus Char.isWhitespace ++ [.one Char.isUpper, .star Char.isLower] ++
    [.lit '.', .star Char.isWhitespace, .star Char.isDigit, .opt 'd'] ++
    rplus Char.isWhitespace ++ rplus Char.isDigit

/-- `SimpleFallbackCompressor._score_sentence`: +1.0 per legal term present
(case-insensitive substring, counted once per term), +2.0 for a citation
match, +0.5 per whitespace-token of the query present (duplicated query
tokens count each time). -/
def score_sentence (sentence : Str) (query : Option Str) : ℚ :=
  let termScore : ℚ :=
    (fallbackLegalTerms.filter (fun term => containsSub (pyLower term) (pyLower sentence))).length
  let citeScore : ℚ := if reSearch scoreCitePat sentence then 2 else 0
  let queryScore : ℚ :=
    match query with
    | some q =>
      ((pySplitWs (pyLower q)).filter (fun t => containsSub t (pyLower sentence))).length * (1 / 2)
    | none => 0
  termScore + citeScore + queryScore

/-- `SimpleFallbackCompressor`. -/
structure SimpleFallbackCompressor where
  target_ratio : ℚ

/-- The comparison realising Python's stable
`scored_sentences.sort(key=lambda x: x[1], reverse=True)`: a stable sort by
score descending equals a sort of the position-tagged list by the total
order (score descending, position ascending).  Elements are
`(position, (sentence, score))`. -/
def fallbackOrd (a b : ℕ × (Str × ℚ)) : Bool :=
  decide (b.2.2 < a.2.2) || (decide (a.2.2 = b.2.2) && decide (a.1 ≤ b.1))

/-- The selection core of `SimpleFallbackCompressor.compress`: the list
`compressed` of emitted sentences, in original order.
`target_count = max(1, int(len(sentences) * target_ratio))`; the selected
set is a set of sentence *strings*, membership being by value. -/
def SimpleFallbackCompressor.selectedSentences (self : SimpleFallbackCompressor)
    (text : Str) (query : Option Str) : List Str :=
  let sentences := split_sentences text
  let scored := sentences.map fun sent => (sent, score_sentence sent query)
  let sorted := insSort fallbackOrd scored.enum
  let target_count : ℤ := max 1 (pytrunc ((sentences.length : ℚ) * self.target_ratio))
  let selected := sorted.take target_count.toNat
  let selected_set := selected.map fun x => x.2.1
  sentences.filter (fun s => selected_set.contains s)

/-- `SimpleFallbackCompressor.compress` (note: no `preserve_citations`
parameter in the source signature). -/
def SimpleFallbackCompressor.compress (self : SimpleFallbackCompressor)
    (text : Str) (query : Option Str) : CompressionResult :=
  let compressed := self.selectedSentences text query
  let compressed_text := pyJoin " ".data compressed
  { compressed_text
    original_tokens := text.length / 4
    compressed_tokens := compressed_text.length / 4
    compression_ratio := if text ≠ [] then (compressed_text.length : ℚ) / (text.length : ℚ) else 1
    preserved_citations := [] }

/-! ## `legal_rag/core/chunker.py` (`LegalChunker.chunk_document`) -/

/-- A section dict as `chunk_document` reads it (`section.get("name",
"CONTENT")`, `section.get("text", "")`). -/
structure DocSection where
  name : Option Str
  text : Option Str

/-- Document metadata as the chunkers read it (`getattr(..., field,
default)` over optional attributes). -/
structure DocMetadata where
  filename : Option Str
  case_name : Option Str
  court : Option Str

/-- A document as `chunk_document` reads it. -/
structure Document where
  content : Str
  sections : List DocSection
  metadata : DocMetadata

/-- `LegalChunker` configuration (sizes are the non-negative counts the
defaults and sources use; `respect_sections` is stored but never read by
this `chunk_document`). -/
structure LegalChunker where
  chunk_size : ℕ
  chunk_overlap : ℕ
  respect_sections : Bool

/-- Loop body of `LegalChunker._get_overlap` over `reversed(chunks)` with a
`break` in the else-branch.  In Python `remaining = chunk_overlap -
len(overlap_text)` may be negative with `if remaining > 0` then false; with
`ℕ` the truncated difference is `0` and the test agrees. -/
def overlapLoop (chunk_overlap : ℕ) : List Str → Str → Str
  | [], acc => acc
  | c :: rest, acc =>
    if acc.length + c.length ≤ chunk_overlap then
      overlapLoop chunk_overlap rest (c ++ " ".data ++ acc)
    else
      let remaining := chunk_overlap - acc.length
      if remaining > 0 then pyTakeRight c remaining ++ " ".data ++ acc else acc

/-- `LegalChunker._get_overlap`. -/
def LegalChunker.get_overlap (self : LegalChunker) (chunks : List Str) : Str :=
  if chunks = [] ∨ self.chunk_overlap = 0 then []
  else pyStrip (overlapLoop self.chunk_overlap chunks.reverse [])

/-- An emitted chunk of `chunk_document`, kept with the buffer (`units`)
it was joined from and the join separator (`" "` when closed in the
sentence branch, `"\n\n"` when closed in the paragraph branch or flushed at
section end); the produced content is `sep.join(units)`. -/
structure ChunkRec where
  units : List Str
  sep : Str
  sectionName : Str
  index : ℕ
deriving DecidableEq

/-- Accumulator state of `chunk_document`: emitted chunk records, the
running `chunk_index`, and the current buffer with its tracked size. -/
structure ChunkState where
  recs : List ChunkRec
  chunk_index : ℕ
  current_chunk : List Str
  current_size : ℕ

/-- The sentence branch of `chunk_document` for one sentence.  Mirrors the
source: on closing, the new buffer is `[overlap_text, sentence]` (or
`[sentence]` if the overlap is empty) and the new size is
`len(current_chunk[0]) + len(sentence)` over the *new* buffer. -/
def processSentence (ck : LegalChunker) (sectionName : Str) (st : ChunkState)
    (sentence : Str) : ChunkState :=
  if st.current_size + sentence.length > ck.chunk_size ∧ st.current_chunk ≠ [] then
    let r : ChunkRec := ⟨st.current_chunk, " ".data, sectionName, st.chunk_index⟩
    let overlap_text := ck.get_overlap st.current_chunk
    let current_chunk := if overlap_text ≠ [] then [overlap_text, sentence] else [sentence]
    let current_size :=
      match current_chunk with
      | u :: _ => u.length + sentence.length
      | [] => sentence.length
    ⟨st.recs ++ [r], st.chunk_index + 1, current_chunk, current_size⟩
  else
    ⟨st.recs, st.chunk_index, st.current_chunk ++ [sentence], st.current_size + sentence.length⟩

/-- The per-paragraph body of `chunk_document`: strip, skip empties, split
oversized paragraphs into sentences, otherwise accumulate with the
paragraph-branch closing rule (whose new size is `len(overlap_text) +
len(paragraph)` or `len(paragraph)`). -/
def processParagraph (ck : LegalChunker) (sectionName : Str) (st : ChunkState)
    (paragraph0 : Str) : ChunkState :=
  let paragraph := pyStrip paragraph0
  if paragraph = [] then st
  else if paragraph.length > ck.chunk_size then
    (split_sentences paragraph).foldl (processSentence ck sectionName) st
  else if st.current_size + paragraph.length > ck.chunk_size ∧ st.current_chunk ≠ [] then
    let r : ChunkRec := ⟨st.current_chunk, "\n\n".data, sectionName, st.chunk_index⟩
    let overlap_text := ck.get_overlap st.current_chunk
    let current_chunk := if overlap_text ≠ [] then [overlap_text, paragraph] else [paragraph]
    let current_size :=
      if overlap_text ≠ [] then overlap_text.length + paragraph.length else paragraph.length
    ⟨st.recs ++ [r], st.chunk_index + 1, current_chunk, current_size⟩
  else
    ⟨st.recs, st.chunk_index, st.current_chunk ++ [paragraph], st.current_size + paragraph.length⟩

/-- One section of `chunk_document`: skip blank text, split into paragraphs
on `"\n\n"`, fold, and flush the trailing buffer.  The buffer is reset per
section but `chunk_index` carries over (it is never reset in the source). -/
def processSection (ck : LegalChunker) (acc : List ChunkRec × ℕ) (s : DocSection) :
    List ChunkRec × ℕ :=
  let sectionName := s.name.getD "CONTENT".data
  let text := s.text.getD []
  if pyStrip text = [] then acc
  else
    let paragraphs := pySplitOnSub "\n\n".data text
    let st := paragraphs.foldl (processParagraph ck sectionName) ⟨acc.1, acc.2, [], 0⟩
    if st.current_chunk ≠ [] then
      (st.recs ++ [⟨st.current_chunk, "\n\n".data, sectionName, st.chunk_index⟩],
       st.chunk_index + 1)
    else (st.recs, st.chunk_index)

/-- The chunk records produced by `LegalChunker.chunk_document` (content of
chunk `r` is `pyJoin r.sep r.units`). -/
def LegalChunker.chunkRecs (self : LegalChunker) (doc : Document) : List ChunkRec :=
  let sections :=
    match doc.sections with
    | [] => [(⟨some "CONTENT".data, some doc.content⟩ : DocSection)]
    | ss => ss
  (sections.foldl (processSection self) ([], 0)).1

/-- A chunk of a document (`DocumentChunk`; the metadata dict is carried as
its three fields). -/
structure DocumentChunk where
  content : Str
  chunk_id : Str
  document_id : Str
  sectionName : Str
  meta_case_name : Str
  meta_court : Str
  meta_filename : Str
deriving DecidableEq

/-- `LegalChunker._create_chunk` applied to a record:
`chunk_id = f"{doc_id}_{section}_{index}"`, document metadata flattened. -/
def createChunk (doc : Document) (r : ChunkRec) : DocumentChunk :=
  let doc_id := doc.metadata.filename.getD "unknown".data
  { content := pyJoin r.sep r.units
    chunk_id := doc_id ++ "_".data ++ r.sectionName ++ "_".data ++ natDigits r.index
    document_id := doc_id
    sectionName := r.sectionName
    meta_case_name := doc.metadata.case_name.getD []
    meta_court := doc.metadata.court.getD []
    meta_filename := doc_id }

/-- `LegalChunker.chunk_document`. -/
def LegalChunker.chunk_document (self : LegalChunker) (doc : Document) :
    List DocumentChunk :=
  (self.chunkRecs doc).map (createChunk doc)

/-! ## `src/document_processor/chunker.py` (the second `LegalChunker`) -/

/-- `src/document_processor` `CITATION_PATTERNS` (protection patterns for
sentence splitting), in source order. -/
def DP_CITATION_PATTERNS : List Pattern :=
  [ rplus Char.isDigit ++ rplus Char.isWhitespace ++ rlits "U.S.".data,  -- r'\d+\s+U\.S\.'
    rplus Char.isDigit ++ rplus Char.isWhitespace ++ rlits "F.".data ++
      rplus Char.isDigit ++ [.lit 'd'],                                  -- r'\d+\s+F\.\d+d'
    rplus Char.isDigit ++ rplus Char.isWhitespace ++ rlits "S.Ct.".data, -- r'\d+\s+S\.Ct\.'
    rlits "Id.".data,                                                    -- r'Id\.'
    rlits "See".data ++ rplus Char.isWhitespace,                         -- r'See\s+'
    rlits "Cf.".data ]                                                   -- r'Cf\.'

/-- The placeholder `f"__PROTECTED_{i}_{n}__"` of
`_split_into_sentences` (`n` is the running length of `protections`). -/
def dpPlaceholder (i n : ℕ) : Str :=
  "__PROTECTED_".data ++ natDigits i ++ "_".data ++ natDigits n ++ "__".data

/-- Inner protection loop of `_split_into_sentences` for pattern `i`:
matches were taken eagerly (`list(re.finditer(...))`) over the text as it
stood; `n` is the running protection count.  Returns the protected text and
the `(placeholder, original)` pairs in append order. -/
def dpProtectInner (i : ℕ) : List Str → ℕ → Str → Str × List (Str × Str)
  | [], _, t => (t, [])
  | c :: ms, n, t =>
    let p := dpPlaceholder i n
    let t' := replFirst c p t
    let (t'', prot) := dpProtectInner i ms (n + 1) t'
    (t'', (p, c) :: prot)

/-- Outer protection loop of `_split_into_sentences` over the patterns
(`i` the pattern index, `n` the running protection count). -/
def dpProtectLoop : List Pattern → ℕ → ℕ → Str → Str × List (Str × Str)
  | [], _, _, t => (t, [])
  | pat :: pats, i, n, t =>
    let ms := finditer pat t
    let (t', prot) := dpProtectInner i ms n t
    let (t'', prot') := dpProtectLoop pats (i + 1) (n + prot.length) t'
    (t'', prot ++ prot')

/-- Sentence split `re.split(r'(?<=[.!?])\s+(?=[A-Z])', text)` walked
structurally.  `pend = some revRun` means we are inside a whitespace run
that began at a `(?<=[.!?])` position and whose status as a separator is
decided by the `(?=[A-Z])` lookahead at its end; the failed run is put back
into the current piece.  `prev` is the previous character of the text (any
non-`[.!?]` character stands for position 0). -/
def dpSplitSentAux : Option Str → Char → Str → Str → List Str
  | none, _, [], acc => [acc.reverse]
  | some revRun, _, [], acc => [(revRun ++ acc).reverse]
  | none, prev, c :: rest, acc =>
    if c.isWhitespace && (prev = '.' || prev = '!' || prev = '?') then
      dpSplitSentAux (some [c]) c rest acc
    else dpSplitSentAux none c rest (c :: acc)
  | some revRun, _, c :: rest, acc =>
    if c.isWhitespace then dpSplitSentAux (some (c :: revRun)) c rest acc
    else if c.isUpper then acc.reverse :: dpSplitSentAux none c rest [c]
    else dpSplitSentAux none c rest (c :: revRun ++ acc)

/-- `_split_into_sentences`: protect citations, split on sentence
boundaries, restore the protections in each piece (all occurrences, in
order), strip and drop empties. -/
def dpSplitIntoSentences (text : Str) : List Str :=
  let (protected_text, protections) := dpProtectLoop DP_CITATION_PATTERNS 0 0 text
  let sentences := dpSplitSentAux none ' ' protected_text []
  (sentences.map fun sentence =>
      pyStrip (protections.foldl (fun s e => replAll e.1 e.2 s) sentence)).filter (· ≠ [])

/-- Paragraph split `re.split(r'\n\s*\n', text)` — matches of the pattern
`\n\s*\n` are located with the regex engine. -/
def dpParagraphSepPat : Pattern := [.lit '\n', .star Char.isWhitespace, .lit '\n']

/-- Fuelled body of `re.split`: cut the string at each non-overlapping
leftmost match of the pattern (the source pattern cannot match the empty
string). -/
def reSplitF (pat : Pattern) : ℕ → Str → Str → List Str
  | 0, s, acc => [(s.reverse ++ acc).reverse]
  | _ + 1, [], acc => [acc.reverse]
  | fuel + 1, c :: t, acc =>
    match matchAtoms pat (c :: t) with
    | some (m, r) =>
      if m.isEmpty then reSplitF pat fuel t (c :: acc)
      else acc.reverse :: reSplitF pat fuel r []
    | none => reSplitF pat fuel t (c :: acc)

/-- `re.split(pat, s)`. -/
def reSplit (pat : Pattern) (s : Str) : List Str := reSplitF pat (s.length + 1) s []

/-- `src/document_processor` chunker configuration. -/
structure DpChunker where
  chunk_size : ℕ
  chunk_overlap : ℕ
  respect_sections : Bool

/-- `_split_into_paragraphs`: split on blank lines, strip, drop empties,
and replace oversized paragraphs by their sentences. -/
def DpChunker.splitIntoParagraphs (self : DpChunker) (text : Str) : List Str :=
  ((reSplit dpParagraphSepPat text).map pyStrip).foldr
    (fun para acc =>
      if para = [] then acc
      else if para.length > self.chunk_size then dpSplitIntoSentences para ++ acc
      else para :: acc) []

/-- An emitted chunk of `_chunk_text`: stripped content and ordinal. -/
structure DpChunkRec where
  content : Str
  idx : ℕ
deriving DecidableEq

/-- Fold state of `_chunk_text`. -/
structure DpState where
  recs : List DpChunkRec
  current_chunk : Str
  chunk_idx : ℕ

/-- Per-paragraph body of `_chunk_text`. -/
def dpProcessParagraph (self : DpChunker) (st : DpState) (para : Str) : DpState :=
  if st.current_chunk.length + para.length > self.chunk_size then
    let (recs, chunk_idx) :=
      if pyStrip st.current_chunk ≠ [] then
        (st.recs ++ [⟨pyStrip st.current_chunk, st.chunk_idx⟩], st.chunk_idx + 1)
      else (st.recs, st.chunk_idx)
    let current_chunk :=
      if self.chunk_overlap > 0 ∧ st.current_chunk ≠ [] then
        pyTakeRight st.current_chunk self.chunk_overlap ++ "\n\n".data ++ para
      else para
    ⟨recs, current_chunk, chunk_idx⟩
  else
    ⟨st.recs,
     if st.current_chunk ≠ [] then st.current_chunk ++ "\n\n".data ++ para else para,
     st.chunk_idx⟩

/-- The chunk records (content, ordinal) produced by `_chunk_text`:
fold over the paragraphs, then flush the final buffer.  `chunk_idx`
starts at `0` on every call. -/
def DpChunker.chunkTextRecs (self : DpChunker) (text : Str) : List DpChunkRec :=
  let paragraphs := self.splitIntoParagraphs text
  let st := paragraphs.foldl (dpProcessParagraph self) ⟨[], [], 0⟩
  if pyStrip st.current_chunk ≠ [] then
    st.recs ++ [⟨pyStrip st.current_chunk, st.chunk_idx⟩]
  else st.recs

/-- The chunk id of `_chunk_text`:
`f"{doc_id}_{section or 'main'}_{chunk_idx}"` (`section or 'main'` is
Python truthiness: `None` and `""` both give `'main'`). -/
def dpChunkId (doc_id : Str) (sectionTitle : Option Str) (idx : ℕ) : Str :=
  let label := match sectionTitle with
    | some s => if s ≠ [] then s else "main".data
    | none => "main".data
  doc_id ++ "_".data ++ label ++ "_".data ++ natDigits idx

/-- `_chunk_text`, producing `DocumentChunk`s (metadata is attached by
`chunk_document` afterwards and is immaterial to the verified claims; the
flattened fields are filled there). -/
def DpChunker.chunkText (self : DpChunker) (text : Str) (doc_id : Str)
    (sectionTitle : Option Str) : List DocumentChunk :=
  (self.chunkTextRecs text).map fun r =>
    { content := r.content
      chunk_id := dpChunkId doc_id sectionTitle r.idx
      document_id := doc_id
      sectionName := (sectionTitle.getD [])
      meta_case_name := []
      meta_court := []
      meta_filename := [] }

/-- A section of a `ProcessedDocument` (`section["title"]`,
`section["content"]` are required keys). -/
structure DpSection where
  title : Str
  content : Str

/-- A `ProcessedDocument` as `chunk_document` reads it. -/
structure DpDocument where
  content : Str
  filename : Str
  case_name : Str
  court : Str
  sections : List DpSection

/-- `src/document_processor` `LegalChunker.chunk_document`: chunk per
section when `respect_sections` and sections exist, else chunk the whole
content; then stamp document metadata onto every chunk. -/
def DpChunker.chunk_document (self : DpChunker) (doc : DpDocument) :
    List DocumentChunk :=
  let chunks :=
    if self.respect_sections && !doc.sections.isEmpty then
      (doc.sections.map fun s => self.chunkText s.content doc.filename (some s.title)).flatten
    else self.chunkText doc.content doc.filename none
  chunks.map fun c =>
    { c with meta_case_name := doc.case_name, meta_court := doc.court,
             meta_filename := doc.filename }

/-! ## `legal_rag/core/legal_rag.py` (`LegalRAGEngine`) -/

/-- `token_stats` dict of a `RAGResponse`.  The empty-retrieval response
carries no `savings_percent` key, hence the optional field.  `savings` is
Python integer subtraction, hence `ℤ`. -/
structure TokenStats where
  original : ℤ
  compressed : ℤ
  savings : ℤ
  savings_percent : Option ℚ
deriving DecidableEq

/-- `RAGResponse`. -/
structure RAGResponse where
  answer : Str
  sources : List RetrievedChunk
  compressed_context : Str
  token_stats : TokenStats
  query : Str
deriving DecidableEq

/-- The Python exceptions surfacing in `LegalRAGEngine.query`:
`ValueError("Vector store not initialized")` and the `TypeError` raised by
calling a function with an unexpected keyword argument. -/
inductive PyError | valueError | typeError
deriving DecidableEq

/-- The engine's `compressor` slot holds one of the two strategies
(`create_components` wires either an `LLMLinguaCompressor` or, on
initialization failure, a `SimpleFallbackCompressor`). -/
inductive CompressorObj where
  | lingua (st : LLMLinguaCompressor)
  | fallback (st : SimpleFallbackCompressor)

/-- The Python call
`compressor.compress(text=..., query=..., preserve_citations=True)`
under Python calling conventions: `SimpleFallbackCompressor.compress`
has no `preserve_citations` parameter, so passing that keyword raises
`TypeError`. -/
def callCompress (comp : CompressorObj) (modelFn : ModelFn) (text : Str)
    (query : Option Str) (preserve_citations : Option Bool) :
    Except PyError CompressionResult :=
  match comp with
  | .lingua st => .ok (st.compress modelFn text query (preserve_citations.getD true))
  | .fallback st =>
    match preserve_citations with
    | none => .ok (st.compress text query)
    | some _ => .error .typeError

/-- Python truthiness of `metadata.get(key)` for an optional string. -/
def truthy : Option Str → Bool
  | none => false
  | some s => !s.isEmpty

/-- `LegalRAGEngine._format_context`: one `[Document i] (…)` header per
chunk (1-based), listing whichever of case name, court, section, filename
are present (truthy), joined by `"; "`; chunks are separated by
`"\n\n---\n\n"`. -/
def format_context (chunks : List RetrievedChunk) : Str :=
  pyJoin "\n\n---\n\n".data (chunks.enum.map fun x =>
    let chunk := x.2
    let source_info : List Str :=
      (if truthy chunk.case_name then ["Case: ".data ++ chunk.case_name.getD []] else []) ++
      (if truthy chunk.court then ["Court: ".data ++ chunk.court.getD []] else []) ++
      (if truthy chunk.sectionKey then ["Section: ".data ++ chunk.sectionKey.getD []] else []) ++
      (if truthy chunk.filename then ["File: ".data ++ chunk.filename.getD []] else [])
    let header := "[Document ".data ++ natDigits (x.1 + 1) ++ "]".data ++
      (if source_info ≠ [] then
        " (".data ++ pyJoin "; ".data source_info ++ ")".data
       else [])
    header ++ ['\n'] ++ chunk.content)

/-- The external vector store's `search(query, top_k, filter_metadata)`,
and the external OpenAI call `(question, context) ↦ answer` (the fixed
system prompt and message template live behind it), as parameters. -/
abbrev SearchFn := Str → ℕ → Option (List (Str × Str)) → List RetrievedChunk

abbrev GenerateFn := Str → Str → Str

/-- `LegalRAGEngine` configuration fields read by `query`. -/
structure LegalRAGEngine where
  top_k : ℕ
  compression_enabled : Bool

/-- `LegalRAGEngine.query`.  Mirrors the source step for step: a missing
vector store raises `ValueError`; zero matches short-circuit to the canned
response (whose `token_stats` has no `savings_percent` key); otherwise the
context is assembled, compressed when enabled and a compressor is present
(the call passes `preserve_citations=True`), the answer generated, and the
statistics aggregated. -/
def LegalRAGEngine.query (eng : LegalRAGEngine) (vector_store : Option SearchFn)
    (compressor : Option CompressorObj) (modelFn : ModelFn) (generate : GenerateFn)
    (question : Str) (filter_metadata : Option (List (Str × Str)))
    (include_sources : Bool) : Except PyError RAGResponse :=
  match vector_store with
  | none => .error .valueError  -- "Vector store not initialized"
  | some search =>
    match search question eng.top_k filter_metadata with
    | [] =>
      .ok { answer := "No relevant documents found for your query.".data
            sources := []
            compressed_context := []
            token_stats := { original := 0, compressed := 0, savings := 0,
                             savings_percent := none }
            query := question }
    | chunk :: rest =>
      let chunks := chunk :: rest
      let original_context := format_context chunks
      let original_tokens : ℤ := (original_context.length / 4 : ℕ)
      let step : Except PyError (Str × ℤ) :=
        match compressor with
        | some comp =>
          if eng.compression_enabled then
            (callCompress comp modelFn original_context (some question) (some true)).map
              fun cr => (cr.compressed_text, (cr.compressed_tokens : ℤ))
          else .ok (original_context, original_tokens)
        | none => .ok (original_context, original_tokens)
      step.map fun res =>
        let context := res.1
        let compressed_tokens := res.2
        let token_stats : TokenStats :=
          { original := original_tokens
            compressed := compressed_tokens
            savings := original_tokens - compressed_tokens
            savings_percent :=
              some (if original_tokens > 0 then
                      ((original_tokens - compressed_tokens : ℤ) : ℚ) / (original_tokens : ℚ) * 100
                    else 0) }
        { answer := generate question context
          sources := if include_sources then chunks else []
          compressed_context := context
          token_stats := token_stats
          query := question }

/-! ## Representation of protected texts

For the round-trip proof the intermediate strings of `_protect_citations`
are represented as token lists: plain (placeholder-free) segments
interleaved with citation placeholders.  `renderP` is the protected text
(placeholders shown), `renderF f` the text with hole `(i, j)` replaced by
`f i j` — taking `f` to look citations up in the final map recovers the
original text. -/

inductive Tok where
  | plain (s : Str)
  | hole (i j : ℕ)

/-- The protected rendering of one token. -/
def Tok.render : Tok → Str
  | .plain s => s
  | .hole i j => placeholder i j

/-- The protected rendering of a token list. -/
def renderP (L : List Tok) : Str := (L.map Tok.render).flatten

/-- Rendering with holes substituted by `f`. -/
def renderF (f : ℕ → ℕ → Str) (L : List Tok) : Str :=
  (L.map fun t => match t with
    | .plain s => s
    | .hole i j => f i j).flatten

/-- The hole keys of a token list, in order. -/
def holeKeys (L : List Tok) : List (ℕ × ℕ) :=
  L.filterMap fun t => match t with
    | .plain _ => none
    | .hole i j => some (i, j)

/-! ## Specification-side selection rule (for the extractive fallback)

Stated from the specification's words for comparison with
`SimpleFallbackCompressor.selectedSentences`. -/

/-- Following the spec: rank the sentences by score, ties broken by
original stable order (i.e. by the total order (score descending, position
ascending)), select the top `k`, and re-emit the selected sentences in
original document order. -/
def specFallbackSelection (text : Str) (query : Option Str) (k : ℕ) : List Str :=
  let sentences := split_sentences text
  let ranked := insSort fallbackOrd (sentences.map fun s => (s, score_sentence s query)).enum
  let topIdx := (ranked.take k).map fun x => x.1
  (sentences.enum.filter fun x => topIdx.contains x.1).map fun x => x.2

/-! Normal form of a protected-text representation, used while proving the
round-trip law: plain segments are non-empty and placeholder-free, and no
two plain segments are adjacent (`NormH` additionally requires a leading
hole or the empty list). -/
mutual
inductive NormT : List Tok → Prop where
  | nil : NormT []
  | hole : ∀ (i j : ℕ) (L : List Tok), NormT L → NormT (Tok.hole i j :: L)
  | plain : ∀ (s : Str) (L : List Tok), s ≠ [] → (∀ ch ∈ s, ch ≠ '_') → NormH L →
      NormT (Tok.plain s :: L)

inductive NormH : List Tok → Prop where
  | nil : NormH []
  | hole : ∀ (i j : ℕ) (L : List Tok), NormT L → NormH (Tok.hole i j :: L)
end

/-- The sorted, position-tagged scored list shared by the code-side and the
spec-side selection. -/
def fallbackSorted (text : Str) (query : Option Str) : List (ℕ × (Str × ℚ)) :=
  insSort fallbackOrd ((split_sentences text).map fun s => (s, score_sentence s query)).enum

/-- All plain segments of a token list are underscore-free. -/
def PlainsFree (L : List Tok) : Prop :=
  ∀ s : Str, Tok.plain s ∈ L → ∀ ch ∈ s, ch ≠ '_'

/-- Prepend a plain segment, dropping it when empty. -/
def mkPlain (s : Str) (L : List Tok) : List Tok :=
  if s.isEmpty then L else Tok.plain s :: L

/-- Substitute one hole key by a plain citation value in a single token. -/
def tokSub (k : ℕ × ℕ) (c : Str) : Tok → Tok
  | .plain s => .plain s
  | .hole i j => if (i, j) = k then .plain c else .hole i j

/-- Substitute one hole key by a plain citation value throughout. -/
def substHole (k : ℕ × ℕ) (c : Str) (L : List Tok) : List Tok :=
  L.map (tokSub k c)

/-- The citation-map entry of a keyed record. -/
def toEntry (kc : (ℕ × ℕ) × Str) : Str × Str :=
  (placeholder kc.1.1 kc.1.2, kc.2)

/-- A character is acceptable to a regex atom. -/
def atomOK : RAtom → Char → Prop
  | .lit c, d => d = c
  | .one p, d => p d = true
  | .star p, d => p d = true
  | .opt c, d => d = c

/-- The atom never accepts an underscore. -/
def atomNoUnderscore : RAtom → Bool
  | .lit c => c != '_'
  | .one p => !p '_'
  | .star p => !p '_'
  | .opt c => c != '_'

/-- The atom is the literal dot. -/
def atomDotLit : RAtom → Bool
  | .lit c => c == '.'
  | _ => false

/-! # Theorems -/

/-! ## Generic helpers -/

theorem foldl_inv {α σ : Type _} (f : σ → α → σ) (P : σ → Prop)
    (h : ∀ st a, P st → P (f st a)) :
    ∀ (l : List α) (st : σ), P st → P (l.foldl f st) := by
  intro l
  induction l with
  | nil => intro st hst; exact hst
  | cons a l ih => intro st hst; exact ih _ (h _ _ hst)

theorem intercalate_singleton (sep x : Str) : List.intercalate sep [x] = x := by
  simp [List.intercalate]

/-! ## C7 — empty retrieval -/

/-- **C7.** If the store's search returns zero matches, `query` returns
(without raising) exactly the canned response: its answer contains
"No relevant documents found", its sources list is empty, and its token
stats are zero-valued, including `original = 0`. -/
theorem query_empty_retrieval (eng : LegalRAGEngine) (search : SearchFn)
    (compressor : Option CompressorObj) (modelFn : ModelFn) (generate : GenerateFn)
    (question : Str) (filter_metadata : Option (List (Str × Str)))
    (include_sources : Bool)
    (h : search question eng.top_k filter_metadata = []) :
    eng.query (some search) compressor modelFn generate question filter_metadata
        include_sources =
      .ok { answer := "No relevant documents found for your query.".data
            sources := []
            compressed_context := []
            token_stats := { original := 0, compressed := 0, savings := 0,
                             savings_percent := none }
            query := question } ∧
    containsSub "No relevant documents found".data
      "No relevant documents found for your query.".data = true := by
  constructor
  · simp only [LegalRAGEngine.query, h]
  · decide

/-- Witness for C7 at a concrete engine and empty store. -/
theorem query_empty_retrieval_witness :
    ((fun (_ : Str) (_ : ℕ) (_ : Option (List (Str × Str))) =>
        ([] : List RetrievedChunk)) "q".data (10 : ℕ) none = []) ∧
    (LegalRAGEngine.query ⟨10, true⟩
        (some fun _ _ _ => []) none (fun _ _ _ _ => none) (fun _ _ => "ans".data)
        "q".data none true =
      .ok { answer := "No relevant documents found for your query.".data
            sources := []
            compressed_context := []
            token_stats := { original := 0, compressed := 0, savings := 0,
                             savings_percent := none }
            query := "q".data } ∧
      containsSub "No relevant documents found".data
        "No relevant documents found for your query.".data = true) :=
  ⟨rfl, query_empty_retrieval ⟨10, true⟩ (fun _ _ _ => []) none
    (fun _ _ _ _ => none) (fun _ _ => "ans".data) "q".data none true rfl⟩

/-! ## C5 — the two strategies do not satisfy one call contract -/

/-- **C5** (code bug evaluation).  `SimpleFallbackCompressor.compress` has no
`preserve_citations` parameter, so the orchestrator's COMPRESS step — which
calls `compress(text=..., query=..., preserve_citations=True)` — raises
`TypeError` whenever the fallback strategy is active and retrieval is
non-empty. -/
theorem fallback_compress_call_typeerror :
    callCompress (.fallback ⟨1 / 2⟩) (fun _ _ _ _ => none) "text".data
        (some "q".data) (some true) = .error .typeError ∧
    LegalRAGEngine.query ⟨10, true⟩
        (some fun _ _ _ => [⟨"body".data, none, none, none, none⟩])
        (some (.fallback ⟨1 / 2⟩)) (fun _ _ _ _ => none) (fun _ _ => "ans".data)
        "q".data none true = .error .typeError := by
  exact ⟨rfl, rfl⟩

/-! ## C1 — citation-protection round trip: counterexample -/

/-- **C1** fails as stated: on a text that already contains the placeholder
token `__CITATION_0_0__`, the single citation match `1 U.S. 2` is replaced
by that same token, and `restore` replaces both occurrences, so the round
trip returns `1 U.S. 2 1 U.S. 2` instead of the original text. -/
theorem protect_restore_not_involutive :
    restore_citations (protect_citations "__CITATION_0_0__ 1 U.S. 2".data).1
        (protect_citations "__CITATION_0_0__ 1 U.S. 2".data).2 =
      "1 U.S. 2 1 U.S. 2".data ∧
    "1 U.S. 2 1 U.S. 2".data ≠ "__CITATION_0_0__ 1 U.S. 2".data := by
  exact ⟨by decide, by decide⟩

/-! ## C2 — chunk ordinals: counterexample -/

/-- **C2** fails as stated for `legal_rag/core/chunker.py`: `chunk_index` is
never reset between sections, so with two one-chunk sections the second
section's only ordinal is `1`, not the re-numbered `0..n-1 = [0]`. -/
theorem chunk_ordinals_not_per_section :
    (LegalChunker.chunk_document ⟨1000, 200, true⟩
        ⟨[], [⟨some "S1".data, some "a".data⟩, ⟨some "S2".data, some "b".data⟩],
         ⟨some "doc".data, none, none⟩⟩).map (fun c => c.chunk_id) =
      ["doc_S1_0".data, "doc_S2_1".data] ∧
    ((LegalChunker.chunkRecs ⟨1000, 200, true⟩
        ⟨[], [⟨some "S1".data, some "a".data⟩, ⟨some "S2".data, some "b".data⟩],
         ⟨some "doc".data, none, none⟩⟩).filter
        (fun r => r.sectionName = "S2".data)).map (fun r => r.index) = [1] ∧
    [1] ≠ List.range 1 := by
  exact ⟨by decide, by decide, by decide⟩

/-! ## C3 — chunk size bound: counterexample -/

/-- **C3** fails as stated: the chunker tracks only the sum of unit lengths,
not the join separators, so with `chunk_size = 10`, `chunk_overlap = 0` the
first emitted chunk is `"aaa\n\nbbb\n\nccc"` of length 13 > 10 + 0 although
every unit packed into it (all plain paragraphs, no sentence splitting ever
ran) has length 3 ≤ chunk_size. -/
theorem chunk_size_bound_violated :
    (LegalChunker.chunk_document ⟨10, 0, true⟩
        ⟨"aaa\n\nbbb\n\nccc\n\nddd".data, [], ⟨none, none, none⟩⟩).map
        (fun c => c.content) = ["aaa\n\nbbb\n\nccc".data, "ddd".data] ∧
    (LegalChunker.chunkRecs ⟨10, 0, true⟩
        ⟨"aaa\n\nbbb\n\nccc\n\nddd".data, [], ⟨none, none, none⟩⟩).map
        (fun r => (r.units, r.sep)) =
      [(["aaa".data, "bbb".data, "ccc".data], "\n\n".data),
       (["ddd".data], "\n\n".data)] ∧
    ¬ ("aaa\n\nbbb\n\nccc".data.length ≤ 10 + 0) ∧
    (["aaa".data, "bbb".data, "ccc".data].all fun u => u.length ≤ 10) = true := by
  exact ⟨by decide, by decide, by decide, by decide⟩

/-! ## Lemmas about `insSort` and the fallback selection -/

theorem insSortInsert_perm (le : α → α → Bool) (x : α) (l : List α) :
    (insSortInsert le x l).Perm (x :: l) := by
  induction l with
  | nil => simp [insSortInsert]
  | cons y ys ih =>
    cases h : le x y with
    | true => simp [insSortInsert, h]
    | false =>
      simp only [insSortInsert, h, Bool.false_eq_true, if_false]
      exact (ih.cons y).trans (List.Perm.swap x y ys)

theorem insSort_perm (le : α → α → Bool) (l : List α) : (insSort le l).Perm l := by
  induction l with
  | nil => simp [insSort]
  | cons x xs ih => exact (insSortInsert_perm le x (insSort le xs)).trans (ih.cons x)

/-- Monotonicity of filtered length in the predicate. -/
theorem length_filter_mono (p q : α → Bool) (l : List α)
    (h : ∀ a ∈ l, p a = true → q a = true) :
    (l.filter p).length ≤ (l.filter q).length := by
  induction l with
  | nil => simp
  | cons a t ih =>
    have ih' := ih fun b hb => h b (List.mem_cons_of_mem a hb)
    cases hp : p a with
    | true =>
      rw [List.filter_cons_of_pos hp, List.filter_cons_of_pos (h a (List.mem_cons_self a t) hp)]
      simpa using ih'
    | false =>
      rw [List.filter_cons_of_neg (by simp [hp])]
      cases hq : q a with
      | true => rw [List.filter_cons_of_pos hq]; exact ih'.trans (Nat.le_succ _)
      | false => rw [List.filter_cons_of_neg (by simp [hq])]; exact ih'

/-- `Python int()` truncation is monotone. -/
theorem pytrunc_mono {q₁ q₂ : ℚ} (h : q₁ ≤ q₂) : pytrunc q₁ ≤ pytrunc q₂ := by
  unfold pytrunc
  by_cases h1 : 0 ≤ q₁
  · rw [if_pos h1, if_pos (h1.trans h)]
    exact Int.floor_le_floor h
  · rw [if_neg h1]
    by_cases h2 : 0 ≤ q₂
    · rw [if_pos h2]
      have hc : ⌈q₁⌉ ≤ 0 := Int.ceil_le.mpr (by exact_mod_cast le_of_not_le h1)
      have hf : 0 ≤ ⌊q₂⌋ := Int.le_floor.mpr (by exact_mod_cast h2)
      omega
    · rw [if_neg h2]
      exact Int.ceil_le_ceil h

theorem selectedSentences_eq_filter (self : SimpleFallbackCompressor) (text : Str)
    (query : Option Str) :
    self.selectedSentences text query =
      (split_sentences text).filter fun s =>
        (((fallbackSorted text query).take
            (max 1 (pytrunc (((split_sentences text).length : ℚ) * self.target_ratio))).toNat).map
          fun x => x.2.1).contains s := rfl

theorem fallbackSorted_perm (text : Str) (query : Option Str) :
    (fallbackSorted text query).Perm
      ((split_sentences text).map fun s => (s, score_sentence s query)).enum :=
  insSort_perm _ _

theorem fallbackSorted_length (text : Str) (query : Option Str) :
    (fallbackSorted text query).length = (split_sentences text).length := by
  rw [(fallbackSorted_perm text query).length_eq, List.enum_length, List.length_map]

/-- Members of the sorted list are position-tagged scored sentences. -/
theorem fallbackSorted_mem {text : Str} {query : Option Str} {x : ℕ × (Str × ℚ)}
    (hx : x ∈ fallbackSorted text query) :
    ∃ h : x.1 < (split_sentences text).length,
      x.2 = ((split_sentences text)[x.1], score_sentence (split_sentences text)[x.1] query) := by
  have hx' := (fallbackSorted_perm text query).subset hx
  obtain ⟨i, s⟩ := x
  rw [List.mk_mem_enum_iff_getElem?] at hx'
  have hi : i < ((split_sentences text).map fun s => (s, score_sentence s query)).length := by
    by_contra hge
    rw [List.getElem?_eq_none (le_of_not_lt hge)] at hx'
    exact Option.noConfusion hx'
  rw [List.getElem?_eq_getElem hi] at hx'
  have hi' : i < (split_sentences text).length := by simpa using hi
  refine ⟨hi', ?_⟩
  have hm : (((split_sentences text).map fun s => (s, score_sentence s query))[i]) =
      ((split_sentences text)[i], score_sentence (split_sentences text)[i] query) :=
    List.getElem_map _
  simp only [Option.some_inj] at hx'
  rw [← hx', hm]

/-- The sentence components of the sorted list are the sentences. -/
theorem fallbackSorted_map_snd_fst_perm (text : Str) (query : Option Str) :
    (((fallbackSorted text query).map fun x => x.2.1)).Perm (split_sentences text) := by
  have h1 := (fallbackSorted_perm text query).map fun x : ℕ × (Str × ℚ) => x.2.1
  refine h1.trans ?_
  have h2 : (((split_sentences text).map fun s => (s, score_sentence s query)).enum.map
      fun x : ℕ × (Str × ℚ) => x.2.1) =
      (((split_sentences text).map fun s => (s, score_sentence s query)).enum.map
        Prod.snd).map Prod.fst := by
    rw [List.map_map]; rfl
  rw [h2, List.enum_map_snd, List.map_map]
  have : (Prod.fst ∘ fun s => (s, score_sentence s query)) = id := rfl
  rw [this, List.map_id]

/-- The selected sentence strings are pairwise distinct when the sentences
are. -/
theorem selected_strings_nodup (text : Str) (query : Option Str) (k : ℕ)
    (hnd : (split_sentences text).Nodup) :
    (((fallbackSorted text query).take k).map fun x => x.2.1).Nodup := by
  have h1 : ((fallbackSorted text query).map fun x => x.2.1).Nodup :=
    (fallbackSorted_map_snd_fst_perm text query).nodup_iff.mpr hnd
  exact h1.sublist ((List.take_sublist k _).map fun x : ℕ × (Str × ℚ) => x.2.1)

/-- Every selected sentence string is one of the sentences. -/
theorem selected_strings_subset (text : Str) (query : Option Str) (k : ℕ) :
    ∀ s ∈ ((fallbackSorted text query).take k).map fun x => x.2.1,
      s ∈ split_sentences text := by
  intro s hs
  obtain ⟨x, hx, rfl⟩ := List.mem_map.mp hs
  obtain ⟨h, hx2⟩ := fallbackSorted_mem ((List.take_sublist k _).subset hx)
  rw [hx2]
  exact List.getElem_mem h

/-- Filtering a duplicate-free list by membership in a duplicate-free
sublist-of-values is a permutation of that value list. -/
theorem filter_contains_perm {S T : List Str} (hS : S.Nodup) (hT : T.Nodup)
    (hsub : ∀ t ∈ T, t ∈ S) : (S.filter fun s => T.contains s).Perm T := by
  apply List.perm_of_nodup_nodup_toFinset_eq (hS.filter _) hT
  ext a
  simp only [List.mem_toFinset, List.mem_filter, List.contains, List.elem_eq_mem,
    decide_eq_true_eq]
  exact ⟨fun h => h.2, fun h => ⟨hsub a h, h⟩⟩

/-- Emitted-sentence count of `SimpleFallbackCompressor`: with distinct
sentences, exactly `min (max 1 (int(n * target_ratio))) n` sentences are
emitted. -/
theorem selectedSentences_length (self : SimpleFallbackCompressor) (text : Str)
    (query : Option Str) (hnd : (split_sentences text).Nodup) :
    (self.selectedSentences text query).length =
      min (max 1 (pytrunc (((split_sentences text).length : ℚ) *
          self.target_ratio))).toNat (split_sentences text).length := by
  rw [selectedSentences_eq_filter]
  have hperm := filter_contains_perm hnd
    (selected_strings_nodup text query
      (max 1 (pytrunc (((split_sentences text).length : ℚ) * self.target_ratio))).toNat hnd)
    (selected_strings_subset text query _)
  rw [hperm.length_eq, List.length_map, List.length_take, fallbackSorted_length]

/-- Filtering an enumeration by an index predicate that agrees with a value
predicate, then projecting, is plain filtering. -/
theorem filter_enumFrom_map_snd (p : α → Bool) (q : ℕ × α → Bool) :
    ∀ (n : ℕ) (l : List α), (∀ x ∈ l.enumFrom n, q x = p x.2) →
      ((l.enumFrom n).filter q).map Prod.snd = l.filter p := by
  intro n l
  induction l generalizing n with
  | nil => intro _; rfl
  | cons a t ih =>
    intro h
    have ha := h (n, a) (by simp [List.enumFrom])
    have ht := ih (n + 1) fun x hx => h x (by simp [List.enumFrom, hx])
    simp only [List.enumFrom]
    cases hp : p a with
    | true =>
      rw [List.filter_cons_of_pos (by rw [ha]; exact hp),
        List.filter_cons_of_pos hp, List.map_cons, ht]
    | false =>
      rw [List.filter_cons_of_neg (by rw [ha]; simp [hp]),
        List.filter_cons_of_neg (by simp [hp]), ht]

/-- With distinct sentences, the code's value-membership selection agrees
with the specification's index-membership selection. -/
theorem selectedSentences_eq_specSelection (self : SimpleFallbackCompressor)
    (text : Str) (query : Option Str) (hnd : (split_sentences text).Nodup) :
    self.selectedSentences text query =
      specFallbackSelection text query
        (max 1 (pytrunc (((split_sentences text).length : ℚ) *
          self.target_ratio))).toNat := by
  rw [selectedSentences_eq_filter]
  show _ = ((split_sentences text).enum.filter fun x =>
      (((fallbackSorted text query).take _).map fun y => y.1).contains x.1).map Prod.snd
  symm
  apply filter_enumFrom_map_snd
  intro x hx
  obtain ⟨i, s⟩ := x
  have hx : (i, s) ∈ (split_sentences text).enum := hx
  have hs : (split_sentences text)[i]? = some s := List.mk_mem_enum_iff_getElem?.mp hx
  have hilt : i < (split_sentences text).length := by
    by_contra hge
    rw [List.getElem?_eq_none (le_of_not_lt hge)] at hs
    exact Option.noConfusion hs
  rw [List.getElem?_eq_getElem hilt, Option.some_inj] at hs
  simp only [List.contains, List.elem_eq_mem]
  apply decide_eq_decide.mpr
  constructor
  · intro hmem
    obtain ⟨y, hy, hy1⟩ := List.mem_map.mp hmem
    obtain ⟨hlt, hy2⟩ := fallbackSorted_mem ((List.take_sublist _ _).subset hy)
    subst hy1
    exact List.mem_map.mpr ⟨y, hy, by rw [hy2]; exact hs⟩
  · intro hmem
    obtain ⟨y, hy, hys⟩ := List.mem_map.mp hmem
    obtain ⟨hlt, hy2⟩ := fallbackSorted_mem ((List.take_sublist _ _).subset hy)
    have hval : (split_sentences text)[y.1] = (split_sentences text)[i] := by
      have h1 : y.2.1 = (split_sentences text)[y.1] := by rw [hy2]
      rw [← h1, hys, ← hs]
    have hidx : y.1 = i := by
      have hinj := List.nodup_iff_injective_get.mp hnd
      have h2 := @hinj ⟨y.1, hlt⟩ ⟨i, hilt⟩ (by
        simp only [List.get_eq_getElem]
        exact hval)
      exact congrArg Fin.val h2
    exact List.mem_map.mpr ⟨y, hy, hidx⟩

/-! ## C4 — extractive selection -/

/-- **C4** fails as stated: for three (distinct, equal-scored) sentences and
`target_ratio = 0.5` the spec's `ceil(3 * 0.5)` is 2, but
`target_count = max(1, int(len(sentences) * target_ratio))` truncates, so
exactly one sentence is emitted. -/
theorem fallback_count_not_ceil :
    (split_sentences "Aaa. Bbb. Ccc.".data).length = 3 ∧
    (SimpleFallbackCompressor.selectedSentences ⟨1 / 2⟩ "Aaa. Bbb. Ccc.".data
        none).length = 1 ∧
    ⌈((3 : ℚ) * (1 / 2))⌉ = 2 ∧ (1 : ℕ) ≠ 2 := by
  have hlen : (split_sentences "Aaa. Bbb. Ccc.".data).length = 3 := by decide
  have htr : pytrunc (((split_sentences "Aaa. Bbb. Ccc.".data).length : ℚ) * (1 / 2)) = 1 := by
    rw [hlen, pytrunc, if_pos (by norm_num)]
    rw [show ((3 : ℕ) : ℚ) * (1 / 2) = 3 / 2 by norm_num]
    rw [Int.floor_eq_iff]
    norm_num
  refine ⟨hlen, ?_, by norm_num [Int.ceil_eq_iff], by norm_num⟩
  rw [selectedSentences_length _ _ _ (by decide), htr, hlen]
  rfl

/-- **C4 (amended).**  For every text whose sentence split yields pairwise
distinct sentences and every `target_ratio`, the extractive-fallback
compressor selects exactly the top `max(1, int(n * target_ratio))` sentences
by score (`int()` truncating toward zero, not `ceil`), ties among equal
scores broken by original stable order, and emits them in original order:
the emitted list equals the specification-side ranking-and-selection
`specFallbackSelection`, and its length is `min (max 1 (int(n*ratio))) n`. -/
theorem fallback_selection_amended (self : SimpleFallbackCompressor) (text : Str)
    (query : Option Str) (hnd : (split_sentences text).Nodup) :
    self.selectedSentences text query =
      specFallbackSelection text query
        (max 1 (pytrunc (((split_sentences text).length : ℚ) *
          self.target_ratio))).toNat ∧
    (self.selectedSentences text query).length =
      min (max 1 (pytrunc (((split_sentences text).length : ℚ) *
          self.target_ratio))).toNat (split_sentences text).length :=
  ⟨selectedSentences_eq_specSelection self text query hnd,
   selectedSentences_length self text query hnd⟩

/-- Witness for the amended C4 at a concrete input with distinct sentences. -/
theorem fallback_selection_amended_witness :
    ("Aaa. Bbb. Ccc.".data ≠ ([] : Str)) ∧
    ((split_sentences "Aaa. Bbb. Ccc.".data).Nodup ∧
     (SimpleFallbackCompressor.selectedSentences ⟨1 / 2⟩ "Aaa. Bbb. Ccc.".data none =
        specFallbackSelection "Aaa. Bbb. Ccc.".data none
          (max 1 (pytrunc (((split_sentences "Aaa. Bbb. Ccc.".data).length : ℚ) *
            (1 / 2)))).toNat ∧
      (SimpleFallbackCompressor.selectedSentences ⟨1 / 2⟩ "Aaa. Bbb. Ccc.".data
          none).length =
        min (max 1 (pytrunc (((split_sentences "Aaa. Bbb. Ccc.".data).length : ℚ) *
          (1 / 2)))).toNat (split_sentences "Aaa. Bbb. Ccc.".data).length)) :=
  ⟨by decide, by decide,
   fallback_selection_amended ⟨1 / 2⟩ "Aaa. Bbb. Ccc.".data none (by decide)⟩

/-! ## C9 — ratio monotonicity of the extractive fallback -/

/-- **C9.**  For every input text and query and ratios `r₁ ≤ r₂`, compressing
with `target_ratio = r₁` never emits more sentences than with `r₂`. -/
theorem fallback_ratio_monotone (text : Str) (query : Option Str) (r₁ r₂ : ℚ)
    (h : r₁ ≤ r₂) :
    (SimpleFallbackCompressor.selectedSentences ⟨r₁⟩ text query).length ≤
      (SimpleFallbackCompressor.selectedSentences ⟨r₂⟩ text query).length := by
  rw [selectedSentences_eq_filter, selectedSentences_eq_filter]
  apply length_filter_mono
  intro s _ hmem
  have hk : (max 1 (pytrunc (((split_sentences text).length : ℚ) * r₁))).toNat ≤
      (max 1 (pytrunc (((split_sentences text).length : ℚ) * r₂))).toNat := by
    apply Int.toNat_le_toNat
    apply max_le_max (le_refl 1)
    exact pytrunc_mono (mul_le_mul_of_nonneg_left h (Nat.cast_nonneg _))
  simp only [List.contains, List.elem_eq_mem, decide_eq_true_eq] at hmem ⊢
  obtain ⟨y, hy, hys⟩ := List.mem_map.mp hmem
  refine List.mem_map.mpr ⟨y, ?_, hys⟩
  have htt : (fallbackSorted text query).take
      (max 1 (pytrunc (((split_sentences text).length : ℚ) * r₁))).toNat =
      ((fallbackSorted text query).take
        (max 1 (pytrunc (((split_sentences text).length : ℚ) * r₂))).toNat).take
          (max 1 (pytrunc (((split_sentences text).length : ℚ) * r₁))).toNat := by
    rw [List.take_take, min_eq_left hk]
  rw [htt] at hy
  exact (List.take_sublist _ _).subset hy

/-- Witness for C9 at `r₁ = 1/4 ≤ 1/2 = r₂`. -/
theorem fallback_ratio_monotone_witness :
    ((1 / 4 : ℚ) ≤ 1 / 2) ∧
    (SimpleFallbackCompressor.selectedSentences ⟨1 / 4⟩
        "Aaa. Bbb. Ccc.".data none).length ≤
      (SimpleFallbackCompressor.selectedSentences ⟨1 / 2⟩
        "Aaa. Bbb. Ccc.".data none).length :=
  ⟨by norm_num,
   fallback_ratio_monotone "Aaa. Bbb. Ccc.".data none (1 / 4) (1 / 2) (by norm_num)⟩

/-! ## C10 — the fallback always emits at least one sentence -/

theorem mem_split_sentences_ne_nil {text s : Str} (hs : s ∈ split_sentences text) :
    s ≠ [] := by
  unfold split_sentences at hs
  have := (List.mem_filter.mp hs).2
  simpa using this

theorem intercalate_cons (sep x : Str) (xs : List Str) :
    ∃ t, List.intercalate sep (x :: xs) = x ++ t := by
  cases xs with
  | nil => exact ⟨[], by rw [intercalate_singleton, List.append_nil]⟩
  | cons y ys =>
    exact ⟨sep ++ List.intercalate sep (y :: ys), by
      simp [List.intercalate, List.intersperse]⟩

/-- **C10.**  If the sentence split of the input yields at least one
(non-whitespace) sentence, the fallback compressor emits at least one
sentence for every `target_ratio` (`target_count = max(1, …) ≥ 1`), so the
returned `compressed_text` is non-empty. -/
theorem fallback_compress_nonempty (self : SimpleFallbackCompressor) (text : Str)
    (query : Option Str) (hne : split_sentences text ≠ []) :
    (self.compress text query).compressed_text ≠ [] := by
  have hsel : self.selectedSentences text query ≠ [] := by
    rw [selectedSentences_eq_filter]
    have hlen : 0 < (fallbackSorted text query).length := by
      rw [fallbackSorted_length]; exact List.length_pos.mpr hne
    obtain ⟨y, ys, hsorted⟩ : ∃ y ys, fallbackSorted text query = y :: ys := by
      cases hs : fallbackSorted text query with
      | nil => rw [hs] at hlen; simp at hlen
      | cons a l => exact ⟨a, l, rfl⟩
    have hk : 1 ≤ (max 1 (pytrunc (((split_sentences text).length : ℚ) *
        self.target_ratio))).toNat := by
      have h1 : (1 : ℤ) ≤ max 1 (pytrunc (((split_sentences text).length : ℚ) *
          self.target_ratio)) := le_max_left 1 _
      exact Int.toNat_le_toNat h1
    have hymem : y ∈ (fallbackSorted text query).take
        (max 1 (pytrunc (((split_sentences text).length : ℚ) *
          self.target_ratio))).toNat := by
      obtain ⟨m, hm⟩ := Nat.exists_eq_add_of_le hk
      rw [hsorted, hm, Nat.add_comm, List.take_succ_cons]
      exact List.mem_cons_self y _
    obtain ⟨hlt2, hy2⟩ := fallbackSorted_mem (by rw [hsorted]; exact List.mem_cons_self y ys)
    apply List.ne_nil_of_mem (show (split_sentences text)[y.1] ∈ _ from ?_)
    refine List.mem_filter.mpr ⟨List.getElem_mem hlt2, ?_⟩
    simp only [List.contains, List.elem_eq_mem, decide_eq_true_eq]
    exact List.mem_map.mpr ⟨y, hymem, by rw [hy2]⟩
  obtain ⟨c, rest, hcr⟩ : ∃ c rest, self.selectedSentences text query = c :: rest := by
    cases hs : self.selectedSentences text query with
    | nil => exact absurd hs hsel
    | cons a l => exact ⟨a, l, rfl⟩
  have hc : c ∈ split_sentences text := by
    have hmem : c ∈ self.selectedSentences text query := by
      rw [hcr]; exact List.mem_cons_self c rest
    rw [selectedSentences_eq_filter] at hmem
    exact (List.mem_filter.mp hmem).1
  show pyJoin " ".data (self.selectedSentences text query) ≠ []
  rw [hcr]
  obtain ⟨t, ht⟩ := intercalate_cons " ".data c rest
  show List.intercalate " ".data (c :: rest) ≠ []
  rw [ht]
  intro habs
  exact mem_split_sentences_ne_nil hc (List.append_eq_nil.mp habs).1

/-- Witness for C10 (`target_ratio = 0`, one sentence). -/
theorem fallback_compress_nonempty_witness :
    (split_sentences "The court held.".data ≠ []) ∧
    (SimpleFallbackCompressor.compress ⟨0⟩ "The court held.".data
        none).compressed_text ≠ [] :=
  ⟨by decide, fallback_compress_nonempty ⟨0⟩ "The court held.".data none (by decide)⟩

/-! ## C2 — chunk ordinals: the invariants that do hold -/

theorem ordinal_push {α : Type _} (f : α → ℕ) (recs : List α) (r : α)
    (h1 : recs.map f = List.range recs.length) (h2 : f r = recs.length) :
    (recs ++ [r]).map f = List.range (recs ++ [r]).length := by
  rw [List.map_append, h1, List.length_append]
  simp [List.range_succ, h2]

theorem processSentence_ordinal (ck : LegalChunker) (sec : Str) (st : ChunkState)
    (s : Str)
    (h : st.recs.map (fun r => r.index) = List.range st.recs.length ∧
      st.chunk_index = st.recs.length) :
    (processSentence ck sec st s).recs.map (fun r => r.index) =
        List.range (processSentence ck sec st s).recs.length ∧
      (processSentence ck sec st s).chunk_index =
        (processSentence ck sec st s).recs.length := by
  unfold processSentence
  by_cases hc : st.current_size + s.length > ck.chunk_size ∧ st.current_chunk ≠ []
  · rw [if_pos hc]
    refine ⟨ordinal_push _ _ _ h.1 h.2, ?_⟩
    simp [h.2]
  · rw [if_neg hc]
    exact h

theorem processParagraph_ordinal (ck : LegalChunker) (sec : Str) (st : ChunkState)
    (p : Str)
    (h : st.recs.map (fun r => r.index) = List.range st.recs.length ∧
      st.chunk_index = st.recs.length) :
    (processParagraph ck sec st p).recs.map (fun r => r.index) =
        List.range (processParagraph ck sec st p).recs.length ∧
      (processParagraph ck sec st p).chunk_index =
        (processParagraph ck sec st p).recs.length := by
  unfold processParagraph
  by_cases h0 : pyStrip p = []
  · rw [if_pos h0]; exact h
  rw [if_neg h0]
  by_cases h1 : (pyStrip p).length > ck.chunk_size
  · rw [if_pos h1]
    exact foldl_inv (processSentence ck sec)
      (fun st => st.recs.map (fun r => r.index) = List.range st.recs.length ∧
        st.chunk_index = st.recs.length)
      (fun st a hst => processSentence_ordinal ck sec st a hst) _ st h
  rw [if_neg h1]
  by_cases h2 : st.current_size + (pyStrip p).length > ck.chunk_size ∧
      st.current_chunk ≠ []
  · rw [if_pos h2]
    refine ⟨ordinal_push _ _ _ h.1 h.2, ?_⟩
    simp [h.2]
  · rw [if_neg h2]
    exact h

theorem processSection_ordinal (ck : LegalChunker) (acc : List ChunkRec × ℕ)
    (s : DocSection)
    (h : acc.1.map (fun r => r.index) = List.range acc.1.length ∧
      acc.2 = acc.1.length) :
    (processSection ck acc s).1.map (fun r => r.index) =
        List.range (processSection ck acc s).1.length ∧
      (processSection ck acc s).2 = (processSection ck acc s).1.length := by
  unfold processSection
  by_cases h0 : pyStrip (s.text.getD []) = []
  · rw [if_pos h0]; exact h
  rw [if_neg h0]
  have hfold := foldl_inv (processParagraph ck (s.name.getD "CONTENT".data))
    (fun st => st.recs.map (fun r => r.index) = List.range st.recs.length ∧
      st.chunk_index = st.recs.length)
    (fun st a hst => processParagraph_ordinal ck _ st a hst)
    (pySplitOnSub "\n\n".data (s.text.getD [])) ⟨acc.1, acc.2, [], 0⟩ h
  by_cases h1 : (pySplitOnSub "\n\n".data (s.text.getD []) |>.foldl
      (processParagraph ck (s.name.getD "CONTENT".data))
      ⟨acc.1, acc.2, [], 0⟩).current_chunk ≠ []
  · rw [if_pos h1]
    refine ⟨ordinal_push _ _ _ hfold.1 hfold.2, ?_⟩
    simp [hfold.2]
  · rw [if_neg h1]
    exact hfold

theorem dpProcessParagraph_ordinal (dp : DpChunker) (st : DpState) (p : Str)
    (h : st.recs.map (fun r => r.idx) = List.range st.recs.length ∧
      st.chunk_idx = st.recs.length) :
    (dpProcessParagraph dp st p).recs.map (fun r => r.idx) =
        List.range (dpProcessParagraph dp st p).recs.length ∧
      (dpProcessParagraph dp st p).chunk_idx =
        (dpProcessParagraph dp st p).recs.length := by
  unfold dpProcessParagraph
  by_cases h0 : st.current_chunk.length + p.length > dp.chunk_size
  · rw [if_pos h0]
    by_cases h1 : pyStrip st.current_chunk ≠ []
    · rw [if_pos h1]
      refine ⟨ordinal_push _ _ _ h.1 h.2, by simp [h.2]⟩
    · rw [if_neg h1]
      exact h
  · rw [if_neg h0]
    exact h

/-- **C2 (amended).**  What does hold of the chunk ordinals: in
`legal_rag/core/chunker.py`, `chunk_document` numbers its chunks
continuously across the whole document — the ordinals over all sections
form the gapless sequence `0..N-1` (so within each section they are
contiguous, but only the first non-empty section starts at 0);  in
`src/document_processor/chunker.py`, `_chunk_text` re-numbers per call —
with `respect_sections` each section's chunk ordinals form the gapless
sequence `0..n-1` starting at 0. -/
theorem chunk_ordinals_amended :
    (∀ (ck : LegalChunker) (doc : Document),
      (ck.chunkRecs doc).map (fun r => r.index) =
        List.range (ck.chunkRecs doc).length) ∧
    (∀ (dp : DpChunker) (text : Str),
      (dp.chunkTextRecs text).map (fun r => r.idx) =
        List.range (dp.chunkTextRecs text).length) := by
  constructor
  · intro ck doc
    unfold LegalChunker.chunkRecs
    have := foldl_inv (processSection ck)
      (fun acc : List ChunkRec × ℕ =>
        acc.1.map (fun r => r.index) = List.range acc.1.length ∧ acc.2 = acc.1.length)
      (fun acc s hacc => processSection_ordinal ck acc s hacc)
      (match doc.sections with
        | [] => [(⟨some "CONTENT".data, some doc.content⟩ : DocSection)]
        | ss => ss) ([], 0) (by simp)
    exact this.1
  · intro dp text
    unfold DpChunker.chunkTextRecs
    have hfold := foldl_inv (dpProcessParagraph dp)
      (fun st : DpState => st.recs.map (fun r => r.idx) = List.range st.recs.length ∧
        st.chunk_idx = st.recs.length)
      (fun st a hst => dpProcessParagraph_ordinal dp st a hst)
      (dp.splitIntoParagraphs text) ⟨[], [], 0⟩ (by simp)
    by_cases h1 : pyStrip (((dp.splitIntoParagraphs text).foldl (dpProcessParagraph dp)
        ⟨[], [], 0⟩).current_chunk) ≠ []
    · rw [if_pos h1]
      exact ordinal_push _ _ _ hfold.1 hfold.2
    · rw [if_neg h1]
      exact hfold.1

/-! ## C3 — chunk size: overlap length bound and size discipline -/

theorem dropWhile_length_le (p : Char → Bool) (s : Str) :
    (s.dropWhile p).length ≤ s.length := by
  induction s with
  | nil => simp
  | cons c t ih =>
    rw [List.dropWhile_cons]
    by_cases h : p c
    · simp only [h, if_true]; exact ih.trans (Nat.le_succ _)
    · simp [h]

theorem pyStrip_length_le (s : Str) : (pyStrip s).length ≤ s.length := by
  unfold pyStrip
  rw [List.length_reverse]
  calc ((s.dropWhile Char.isWhitespace).reverse.dropWhile Char.isWhitespace).length
      ≤ (s.dropWhile Char.isWhitespace).reverse.length := dropWhile_length_le _ _
    _ = (s.dropWhile Char.isWhitespace).length := List.length_reverse _
    _ ≤ s.length := dropWhile_length_le _ _

theorem dropWhile_getLast? (p : Char → Bool) :
    ∀ s : Str, s.dropWhile p ≠ [] → (s.dropWhile p).getLast? = s.getLast? := by
  intro s
  induction s with
  | nil => intro h; simp at h
  | cons c t ih =>
    intro h
    rw [List.dropWhile_cons] at h ⊢
    by_cases hc : p c
    · simp only [hc, if_true] at h ⊢
      have ht : t ≠ [] := by
        intro he; rw [he] at h; simp at h
      obtain ⟨b, l, rfl⟩ : ∃ b l, t = b :: l := by
        cases t with
        | nil => exact absurd rfl ht
        | cons b l => exact ⟨b, l, rfl⟩
      rw [ih h, List.getLast?_cons_cons]
    · simp [hc]

theorem pyStrip_length_lt {s : Str} (h : s.getLast? = some ' ') :
    (pyStrip s).length < s.length := by
  have hne : s ≠ [] := by
    intro he; rw [he] at h; simp at h
  have hpos : 0 < s.length := List.length_pos.mpr hne
  unfold pyStrip
  rw [List.length_reverse]
  by_cases h1 : s.dropWhile Char.isWhitespace = []
  · rw [h1]
    simpa using hpos
  · have hlast : (s.dropWhile Char.isWhitespace).getLast? = some ' ' :=
      (dropWhile_getLast? _ s h1).trans h
    have hhead : (s.dropWhile Char.isWhitespace).reverse.head? = some ' ' := by
      rw [List.head?_reverse]; exact hlast
    obtain ⟨t, ht⟩ : ∃ t, (s.dropWhile Char.isWhitespace).reverse = ' ' :: t := by
      cases hrev : (s.dropWhile Char.isWhitespace).reverse with
      | nil => rw [hrev] at hhead; simp at hhead
      | cons a l =>
        rw [hrev] at hhead
        simp only [List.head?_cons, Option.some_inj] at hhead
        exact ⟨l, by rw [hhead]⟩
    rw [ht, List.dropWhile_cons]
    simp only [Char.isWhitespace, if_pos (by decide : (' '.isWhitespace : Bool) = true)]
    calc (t.dropWhile Char.isWhitespace).length
        ≤ t.length := dropWhile_length_le _ _
      _ < (' ' :: t).length := by simp
      _ = (s.dropWhile Char.isWhitespace).length := by rw [← ht, List.length_reverse]
      _ ≤ s.length := dropWhile_length_le _ _

theorem overlapLoop_spec (co : ℕ) :
    ∀ (l : List Str) (acc : Str),
      (acc = [] ∨ (acc.length ≤ co + 1 ∧ acc.getLast? = some ' ')) →
      (overlapLoop co l acc = [] ∨
        ((overlapLoop co l acc).length ≤ co + 1 ∧
          (overlapLoop co l acc).getLast? = some ' ')) := by
  intro l
  induction l with
  | nil => intro acc h; exact h
  | cons c rest ih =>
    intro acc h
    simp only [overlapLoop]
    by_cases h1 : acc.length + c.length ≤ co
    · rw [if_pos h1]
      apply ih
      right
      have hlast : (c ++ " ".data ++ acc).getLast? = some ' ' := by
        cases hacc : acc with
        | nil => simp [List.getLast?_append]
        | cons a t =>
          rw [List.getLast?_append]
          rcases h with h | h
          · rw [hacc] at h; exact absurd h (by simp)
          · rw [← hacc, h.2]; rfl
      refine ⟨?_, hlast⟩
      simp only [List.length_append]
      have hsp : ([' '] : Str).length = 1 := rfl
      have hsp2 : (" ".data : Str).length = 1 := rfl
      omega
    · rw [if_neg h1]
      by_cases h2 : co - acc.length > 0
      · rw [if_pos h2]
        right
        have hlast : (pyTakeRight c (co - acc.length) ++ " ".data ++ acc).getLast? =
            some ' ' := by
          cases hacc : acc with
          | nil => simp [List.getLast?_append]
          | cons a t =>
            rw [List.getLast?_append]
            rcases h with h | h
            · rw [hacc] at h; exact absurd h (by simp)
            · rw [← hacc, h.2]; rfl
        refine ⟨?_, hlast⟩
        simp only [List.length_append, pyTakeRight, List.length_drop]
        have hsp : ([' '] : Str).length = 1 := rfl
        have hsp2 : (" ".data : Str).length = 1 := rfl
        omega
      · rw [if_neg h2]
        exact h

/-- `LegalChunker._get_overlap` returns at most `chunk_overlap` characters. -/
theorem get_overlap_length_le (ck : LegalChunker) (chunks : List Str) :
    (ck.get_overlap chunks).length ≤ ck.chunk_overlap := by
  unfold LegalChunker.get_overlap
  by_cases h : chunks = [] ∨ ck.chunk_overlap = 0
  · rw [if_pos h]; simp
  · rw [if_neg h]
    rcases overlapLoop_spec ck.chunk_overlap chunks.reverse [] (Or.inl rfl) with he | hs
    · rw [he]
      simp [pyStrip]
    · have := pyStrip_length_lt hs.2
      omega

theorem intercalate_cons_cons (sep x y : Str) (ys : List Str) :
    List.intercalate sep (x :: y :: ys) = x ++ sep ++ List.intercalate sep (y :: ys) := by
  simp [List.intercalate, List.intersperse]

theorem intercalate_length (sep : Str) :
    ∀ l : List Str, l ≠ [] →
      (List.intercalate sep l).length =
        (l.map List.length).sum + sep.length * (l.length - 1) := by
  intro l
  induction l with
  | nil => intro h; exact absurd rfl h
  | cons x xs ih =>
    intro _
    cases xs with
    | nil => rw [intercalate_singleton]; simp
    | cons y ys =>
      have hih := ih (by simp)
      rw [intercalate_cons_cons]
      simp only [List.length_append]
      rw [hih, show (y :: ys).length - 1 = ys.length from by simp,
        show (x :: y :: ys).length - 1 = ys.length + 1 from by simp]
      simp only [List.map_cons, List.sum_cons]
      ring

theorem processSentence_size (ck : LegalChunker) (sec : Str) (st : ChunkState) (s : Str)
    (h : (st.current_chunk.map List.length).sum ≤ st.current_size ∧
      ((st.current_chunk.map List.length).sum ≤ ck.chunk_size + ck.chunk_overlap ∨
        ∃ u ∈ st.current_chunk, ck.chunk_size < u.length) ∧
      ∀ r ∈ st.recs,
        ((r.units.map List.length).sum ≤ ck.chunk_size + ck.chunk_overlap ∨
          ∃ u ∈ r.units, ck.chunk_size < u.length) ∧ r.sep.length ≤ 2) :
    ((processSentence ck sec st s).current_chunk.map List.length).sum ≤
        (processSentence ck sec st s).current_size ∧
      (((processSentence ck sec st s).current_chunk.map List.length).sum ≤
          ck.chunk_size + ck.chunk_overlap ∨
        ∃ u ∈ (processSentence ck sec st s).current_chunk, ck.chunk_size < u.length) ∧
      ∀ r ∈ (processSentence ck sec st s).recs,
        ((r.units.map List.length).sum ≤ ck.chunk_size + ck.chunk_overlap ∨
          ∃ u ∈ r.units, ck.chunk_size < u.length) ∧ r.sep.length ≤ 2 := by
  obtain ⟨h1, h2, h3⟩ := h
  unfold processSentence
  by_cases hc : st.current_size + s.length > ck.chunk_size ∧ st.current_chunk ≠ []
  · rw [if_pos hc]
    have hrecs : ∀ r ∈ st.recs ++ [⟨st.current_chunk, " ".data, sec, st.chunk_index⟩],
        ((r.units.map List.length).sum ≤ ck.chunk_size + ck.chunk_overlap ∨
          ∃ u ∈ r.units, ck.chunk_size < u.length) ∧ r.sep.length ≤ 2 := by
      intro r hr
      rcases List.mem_append.mp hr with hr | hr
      · exact h3 r hr
      · rw [List.mem_singleton] at hr
        subst hr
        exact ⟨h2, by simp⟩
    by_cases hov : ck.get_overlap st.current_chunk ≠ []
    · simp only [if_pos hov]
      have hovle := get_overlap_length_le ck st.current_chunk
      refine ⟨by simp, ?_, hrecs⟩
      by_cases hs : ck.chunk_size < s.length
      · exact Or.inr ⟨s, by simp, hs⟩
      · left
        simp only [List.map_cons, List.map_nil, List.sum_cons, List.sum_nil]
        omega
    · simp only [if_neg hov]
      refine ⟨by simp, ?_, hrecs⟩
      by_cases hs : ck.chunk_size < s.length
      · exact Or.inr ⟨s, by simp, hs⟩
      · left
        simp only [List.map_cons, List.map_nil, List.sum_cons, List.sum_nil]
        omega
  · rw [if_neg hc]
    refine ⟨?_, ?_, h3⟩
    · simp only [List.map_append, List.sum_append, List.map_cons, List.map_nil,
        List.sum_cons, List.sum_nil]
      omega
    · rcases Decidable.not_and_iff_or_not.mp hc with hA | hB
      · have hsz : st.current_size + s.length ≤ ck.chunk_size := le_of_not_lt hA
        left
        simp only [List.map_append, List.sum_append, List.map_cons, List.map_nil,
          List.sum_cons, List.sum_nil]
        omega
      · have hemp : st.current_chunk = [] := of_not_not hB
        rw [hemp]
        by_cases hs : ck.chunk_size < s.length
        · exact Or.inr ⟨s, by simp, hs⟩
        · left
          simp only [List.nil_append, List.map_cons, List.map_nil, List.sum_cons,
            List.sum_nil]
          omega

theorem processParagraph_size (ck : LegalChunker) (sec : Str) (st : ChunkState) (p : Str)
    (h : (st.current_chunk.map List.length).sum ≤ st.current_size ∧
      ((st.current_chunk.map List.length).sum ≤ ck.chunk_size + ck.chunk_overlap ∨
        ∃ u ∈ st.current_chunk, ck.chunk_size < u.length) ∧
      ∀ r ∈ st.recs,
        ((r.units.map List.length).sum ≤ ck.chunk_size + ck.chunk_overlap ∨
          ∃ u ∈ r.units, ck.chunk_size < u.length) ∧ r.sep.length ≤ 2) :
    ((processParagraph ck sec st p).current_chunk.map List.length).sum ≤
        (processParagraph ck sec st p).current_size ∧
      (((processParagraph ck sec st p).current_chunk.map List.length).sum ≤
          ck.chunk_size + ck.chunk_overlap ∨
        ∃ u ∈ (processParagraph ck sec st p).current_chunk, ck.chunk_size < u.length) ∧
      ∀ r ∈ (processParagraph ck sec st p).recs,
        ((r.units.map List.length).sum ≤ ck.chunk_size + ck.chunk_overlap ∨
          ∃ u ∈ r.units, ck.chunk_size < u.length) ∧ r.sep.length ≤ 2 := by
  obtain ⟨h1, h2, h3⟩ := h
  unfold processParagraph
  by_cases h0 : pyStrip p = []
  · rw [if_pos h0]; exact ⟨h1, h2, h3⟩
  rw [if_neg h0]
  by_cases hbig : (pyStrip p).length > ck.chunk_size
  · rw [if_pos hbig]
    exact foldl_inv (processSentence ck sec)
      (fun st => (st.current_chunk.map List.length).sum ≤ st.current_size ∧
        ((st.current_chunk.map List.length).sum ≤ ck.chunk_size + ck.chunk_overlap ∨
          ∃ u ∈ st.current_chunk, ck.chunk_size < u.length) ∧
        ∀ r ∈ st.recs,
          ((r.units.map List.length).sum ≤ ck.chunk_size + ck.chunk_overlap ∨
            ∃ u ∈ r.units, ck.chunk_size < u.length) ∧ r.sep.length ≤ 2)
      (fun st a hst => processSentence_size ck sec st a hst) _ st ⟨h1, h2, h3⟩
  rw [if_neg hbig]
  have hple : (pyStrip p).length ≤ ck.chunk_size := le_of_not_lt hbig
  by_cases hc : st.current_size + (pyStrip p).length > ck.chunk_size ∧
      st.current_chunk ≠ []
  · rw [if_pos hc]
    have hrecs : ∀ r ∈ st.recs ++ [⟨st.current_chunk, "\n\n".data, sec, st.chunk_index⟩],
        ((r.units.map List.length).sum ≤ ck.chunk_size + ck.chunk_overlap ∨
          ∃ u ∈ r.units, ck.chunk_size < u.length) ∧ r.sep.length ≤ 2 := by
      intro r hr
      rcases List.mem_append.mp hr with hr | hr
      · exact h3 r hr
      · rw [List.mem_singleton] at hr
        subst hr
        exact ⟨h2, by simp⟩
    have hovle := get_overlap_length_le ck st.current_chunk
    by_cases hov : ck.get_overlap st.current_chunk ≠ []
    · simp only [if_pos hov]
      refine ⟨by simp, Or.inl ?_, hrecs⟩
      simp only [List.map_cons, List.map_nil, List.sum_cons, List.sum_nil]
      omega
    · simp only [if_neg hov]
      refine ⟨by simp, Or.inl ?_, hrecs⟩
      simp only [List.map_cons, List.map_nil, List.sum_cons, List.sum_nil]
      omega
  · rw [if_neg hc]
    refine ⟨?_, ?_, h3⟩
    · simp only [List.map_append, List.sum_append, List.map_cons, List.map_nil,
        List.sum_cons, List.sum_nil]
      omega
    · rcases Decidable.not_and_iff_or_not.mp hc with hA | hB
      · have hsz : st.current_size + (pyStrip p).length ≤ ck.chunk_size :=
          le_of_not_lt hA
        left
        simp only [List.map_append, List.sum_append, List.map_cons, List.map_nil,
          List.sum_cons, List.sum_nil]
        omega
      · have hemp : st.current_chunk = [] := of_not_not hB
        rw [hemp]
        left
        simp only [List.nil_append, List.map_cons, List.map_nil, List.sum_cons,
          List.sum_nil]
        omega

theorem processSection_size (ck : LegalChunker) (acc : List ChunkRec × ℕ) (s : DocSection)
    (h : ∀ r ∈ acc.1,
      ((r.units.map List.length).sum ≤ ck.chunk_size + ck.chunk_overlap ∨
        ∃ u ∈ r.units, ck.chunk_size < u.length) ∧ r.sep.length ≤ 2) :
    ∀ r ∈ (processSection ck acc s).1,
      ((r.units.map List.length).sum ≤ ck.chunk_size + ck.chunk_overlap ∨
        ∃ u ∈ r.units, ck.chunk_size < u.length) ∧ r.sep.length ≤ 2 := by
  unfold processSection
  by_cases h0 : pyStrip (s.text.getD []) = []
  · rw [if_pos h0]; exact h
  rw [if_neg h0]
  have hfold := foldl_inv (processParagraph ck (s.name.getD "CONTENT".data))
    (fun st => (st.current_chunk.map List.length).sum ≤ st.current_size ∧
      ((st.current_chunk.map List.length).sum ≤ ck.chunk_size + ck.chunk_overlap ∨
        ∃ u ∈ st.current_chunk, ck.chunk_size < u.length) ∧
      ∀ r ∈ st.recs,
        ((r.units.map List.length).sum ≤ ck.chunk_size + ck.chunk_overlap ∨
          ∃ u ∈ r.units, ck.chunk_size < u.length) ∧ r.sep.length ≤ 2)
    (fun st a hst => processParagraph_size ck _ st a hst)
    (pySplitOnSub "\n\n".data (s.text.getD [])) ⟨acc.1, acc.2, [], 0⟩
    ⟨by simp, Or.inl (by simp), h⟩
  by_cases h1 : ((pySplitOnSub "\n\n".data (s.text.getD [])).foldl
      (processParagraph ck (s.name.getD "CONTENT".data))
      ⟨acc.1, acc.2, [], 0⟩).current_chunk ≠ []
  · rw [if_pos h1]
    intro r hr
    rcases List.mem_append.mp hr with hr | hr
    · exact hfold.2.2 r hr
    · rw [List.mem_singleton] at hr
      subst hr
      exact ⟨hfold.2.1, by simp⟩
  · rw [if_neg h1]
    exact hfold.2.2

/-- Every chunk record produced by `LegalChunker.chunk_document` satisfies
the size discipline. -/
theorem chunkRecs_good (ck : LegalChunker) (doc : Document) :
    ∀ r ∈ ck.chunkRecs doc,
      ((r.units.map List.length).sum ≤ ck.chunk_size + ck.chunk_overlap ∨
        ∃ u ∈ r.units, ck.chunk_size < u.length) ∧ r.sep.length ≤ 2 := by
  unfold LegalChunker.chunkRecs
  exact foldl_inv (processSection ck)
    (fun acc : List ChunkRec × ℕ => ∀ r ∈ acc.1,
      ((r.units.map List.length).sum ≤ ck.chunk_size + ck.chunk_overlap ∨
        ∃ u ∈ r.units, ck.chunk_size < u.length) ∧ r.sep.length ≤ 2)
    (fun acc s hacc => processSection_size ck acc s hacc) _ ([], 0) (by simp)

/-- **C3 (amended).**  Every chunk of `chunk_document` satisfies the size
bound once the join separators (uncounted by the implementation) are
allowed for: the chunk's content length is at most
`chunk_size + chunk_overlap + 2·(units − 1)` — equivalently, the sum of the
lengths of the units packed into the chunk is at most
`chunk_size + chunk_overlap` — except for chunks containing an indivisible
sentence longer than `chunk_size` (overflow permitted, never truncated). -/
theorem chunk_size_bound_amended (ck : LegalChunker) (doc : Document) (r : ChunkRec)
    (hr : r ∈ ck.chunkRecs doc) :
    ((pyJoin r.sep r.units).length ≤
        ck.chunk_size + ck.chunk_overlap + 2 * (r.units.length - 1) ∧
      (r.units.map List.length).sum ≤ ck.chunk_size + ck.chunk_overlap) ∨
      ∃ u ∈ r.units, ck.chunk_size < u.length := by
  obtain ⟨hgood, hsep⟩ := chunkRecs_good ck doc r hr
  rcases hgood with hle | hover
  · left
    refine ⟨?_, hle⟩
    cases hu : r.units with
    | nil => simp [pyJoin, List.intercalate]
    | cons x xs =>
      have hlen := intercalate_length r.sep (x :: xs) (by simp)
      show (List.intercalate r.sep (x :: xs)).length ≤ _
      rw [hlen]
      have hmul : r.sep.length * ((x :: xs).length - 1) ≤ 2 * ((x :: xs).length - 1) :=
        Nat.mul_le_mul_right _ hsep
      rw [hu] at hle
      omega
  · exact Or.inr hover

/-- Witness for the amended C3 at the counterexample configuration. -/
theorem chunk_size_bound_amended_witness :
    ((⟨["aaa".data, "bbb".data, "ccc".data], "\n\n".data, "CONTENT".data, 0⟩ : ChunkRec) ∈
      LegalChunker.chunkRecs ⟨10, 0, true⟩
        ⟨"aaa\n\nbbb\n\nccc\n\nddd".data, [], ⟨none, none, none⟩⟩) ∧
    (((pyJoin "\n\n".data ["aaa".data, "bbb".data, "ccc".data]).length ≤
        10 + 0 + 2 * (["aaa".data, "bbb".data, "ccc".data].length - 1) ∧
      (["aaa".data, "bbb".data, "ccc".data].map List.length).sum ≤ 10 + 0) ∨
      ∃ u ∈ ["aaa".data, "bbb".data, "ccc".data], 10 < u.length) := by
  constructor
  · decide
  · exact chunk_size_bound_amended ⟨10, 0, true⟩
      ⟨"aaa\n\nbbb\n\nccc\n\nddd".data, [], ⟨none, none, none⟩⟩
      ⟨["aaa".data, "bbb".data, "ccc".data], "\n\n".data, "CONTENT".data, 0⟩ (by decide)

/-! ## C6 — adaptive budget fitting -/

/-- **C6.**  In `compress_chunks`, when the estimated tokens of the combined
context would exceed `max_output_tokens` at the configured ratio (i.e.
`max_output_tokens / current_tokens < target_ratio`, the code's condition),
the call is made with the ratio `(max_output_tokens / current_tokens) * 0.9`
and the configured `target_ratio` field equals its original value again
after the call returns. -/
theorem compress_chunks_adaptive_budget (self : LLMLinguaCompressor) (modelFn : ModelFn)
    (chunks : List RetrievedChunk) (query : Str) (max_output_tokens : ℕ)
    (hpos : 0 < estimate_tokens (combineChunks chunks))
    (hle : (max_output_tokens : ℚ) / (estimate_tokens (combineChunks chunks) : ℚ) ≤ 1)
    (hlt : (max_output_tokens : ℚ) / (estimate_tokens (combineChunks chunks) : ℚ) <
      self.target_ratio) :
    (self.compress_chunks modelFn chunks query max_output_tokens).2.target_ratio =
        self.target_ratio ∧
    (self.compress_chunks modelFn chunks query max_output_tokens).1 =
      (LLMLinguaCompressor.compress
        { self with target_ratio :=
            (max_output_tokens : ℚ) / (estimate_tokens (combineChunks chunks) : ℚ) *
              (9 / 10) }
        modelFn (combineChunks chunks) (some query) true).compressed_text := by
  unfold LLMLinguaCompressor.compress_chunks
  simp only [if_pos hpos, min_eq_left hle, if_pos hlt]
  exact ⟨trivial, trivial⟩

/-- Witness for C6 at the specification's numbers: `current_tokens = 1000`,
`max_output_tokens = 300`, `target_ratio = 0.5`; the effective ratio is
`0.3 * 0.9 = 0.27` and the configured ratio is `0.5` afterwards. -/
theorem compress_chunks_adaptive_budget_witness :
    (0 < estimate_tokens (combineChunks
        [⟨List.replicate 3988 'a', some "u".data, none, none, none⟩])) ∧
    ((300 : ℚ) / (estimate_tokens (combineChunks
        [⟨List.replicate 3988 'a', some "u".data, none, none, none⟩]) : ℚ) ≤ 1) ∧
    ((300 : ℚ) / (estimate_tokens (combineChunks
        [⟨List.replicate 3988 'a', some "u".data, none, none, none⟩]) : ℚ) <
      (⟨[], 1 / 2, [], false⟩ : LLMLinguaCompressor).target_ratio) ∧
    ((300 : ℚ) / (estimate_tokens (combineChunks
        [⟨List.replicate 3988 'a', some "u".data, none, none, none⟩]) : ℚ) * (9 / 10) =
      27 / 100) ∧
    ((LLMLinguaCompressor.compress_chunks ⟨[], 1 / 2, [], false⟩ (fun _ _ _ _ => none)
        [⟨List.replicate 3988 'a', some "u".data, none, none, none⟩] "q".data
        300).2.target_ratio = (1 / 2 : ℚ) ∧
      (LLMLinguaCompressor.compress_chunks ⟨[], 1 / 2, [], false⟩ (fun _ _ _ _ => none)
        [⟨List.replicate 3988 'a', some "u".data, none, none, none⟩] "q".data 300).1 =
      (LLMLinguaCompressor.compress
        { model_name := ([] : Str), target_ratio :=
            (300 : ℚ) / (estimate_tokens (combineChunks
              [⟨List.replicate 3988 'a', some "u".data, none, none, none⟩]) : ℚ) *
              (9 / 10),
          force_tokens := [], use_gpu := false }
        (fun _ _ _ _ => none)
        (combineChunks [⟨List.replicate 3988 'a', some "u".data, none, none, none⟩])
        (some "q".data) true).compressed_text) := by
  have hcomb : combineChunks [⟨List.replicate 3988 'a', some "u".data, none, none, none⟩] =
      "[Source: u]\n".data ++ List.replicate 3988 'a' := by
    unfold combineChunks pyJoin
    rw [List.map_singleton, intercalate_singleton]
    rw [show "[Source: u]\n".data =
      "[Source: ".data ++ ("u".data ++ ("]".data ++ ['\n'])) from rfl]
    simp only [Option.getD_some, List.append_assoc]
  have hest : estimate_tokens (combineChunks
      [⟨List.replicate 3988 'a', some "u".data, none, none, none⟩]) = 1000 := by
    unfold estimate_tokens
    rw [hcomb, List.length_append, List.length_replicate,
      show ("[Source: u]\n".data).length = 12 from rfl]
  rw [hest]
  refine ⟨by norm_num, by norm_num, by norm_num, by norm_num, ?_⟩
  have := compress_chunks_adaptive_budget ⟨[], 1 / 2, [], false⟩ (fun _ _ _ _ => none)
    [⟨List.replicate 3988 'a', some "u".data, none, none, none⟩] "q".data 300
    (by rw [hest]; norm_num) (by rw [hest]; norm_num) (by rw [hest]; norm_num)
  rw [hest] at this
  exact this

/-! ## C8 — token statistics aggregation -/

/-- **C8.**  For every query with non-empty retrieval (compression enabled,
model-delegating compressor configured), the returned `token_stats`
satisfies: tokens are estimated as character count divided by 4,
`savings = original − compressed`, and
`savings_percent = savings / original * 100` (0 when `original = 0`). -/
theorem token_stats_aggregation (eng : LegalRAGEngine) (search : SearchFn)
    (comp : LLMLinguaCompressor) (modelFn : ModelFn) (generate : GenerateFn)
    (question : Str) (filter_metadata : Option (List (Str × Str)))
    (include_sources : Bool) (o c : ℤ)
    (ho : o = (((format_context (search question eng.top_k filter_metadata)).length /
      4 : ℕ) : ℤ))
    (hc : c = ((comp.compress modelFn
      (format_context (search question eng.top_k filter_metadata))
      (some question) true).compressed_tokens : ℤ))
    (hne : search question eng.top_k filter_metadata ≠ [])
    (hce : eng.compression_enabled = true) :
    (eng.query (some search) (some (.lingua comp)) modelFn generate question
        filter_metadata include_sources).map (fun r => r.token_stats) =
      .ok { original := o
            compressed := c
            savings := o - c
            savings_percent :=
              some (if o > 0 then ((o - c : ℤ) : ℚ) / (o : ℚ) * 100 else 0) } := by
  subst ho hc
  cases hs : search question eng.top_k filter_metadata with
  | nil => exact absurd hs hne
  | cons a l =>
    simp only [LegalRAGEngine.query, hs, hce, callCompress, if_true, Except.map_ok,
      Except.map, Option.getD_some]

/-- Witness for C8: an original context of 400 characters compressed to 120
characters yields `original = 100`, `compressed = 30`, `savings = 70`,
`savings_percent = 70`. -/
theorem token_stats_aggregation_witness :
    ((100 : ℤ) = (((format_context ((fun (_ : Str) (_ : ℕ)
        (_ : Option (List (Str × Str))) =>
        [(⟨List.replicate 387 'a', none, none, none, none⟩ : RetrievedChunk)])
        "q".data (10 : ℕ) none)).length / 4 : ℕ) : ℤ)) ∧
    ((30 : ℤ) = ((LLMLinguaCompressor.compress ⟨[], 1 / 2, [], false⟩
        (fun _ _ _ _ => some (List.replicate 120 'b'))
        (format_context ((fun (_ : Str) (_ : ℕ) (_ : Option (List (Str × Str))) =>
          [(⟨List.replicate 387 'a', none, none, none, none⟩ : RetrievedChunk)])
          "q".data (10 : ℕ) none))
        (some "q".data) true).compressed_tokens : ℤ)) ∧
    ((fun (_ : Str) (_ : ℕ) (_ : Option (List (Str × Str))) =>
        [(⟨List.replicate 387 'a', none, none, none, none⟩ : RetrievedChunk)])
      "q".data (10 : ℕ) none ≠ []) ∧
    ((⟨10, true⟩ : LegalRAGEngine).compression_enabled = true) ∧
    ((LegalRAGEngine.query ⟨10, true⟩
        (some fun _ _ _ => [⟨List.replicate 387 'a', none, none, none, none⟩])
        (some (.lingua ⟨[], 1 / 2, [], false⟩))
        (fun _ _ _ _ => some (List.replicate 120 'b'))
        (fun _ _ => "ans".data) "q".data none true).map (fun r => r.token_stats) =
      .ok { original := 100, compressed := 30, savings := 70,
            savings_percent := some 70 }) := by
  have h400 : (format_context [(⟨List.replicate 387 'a', none, none, none,
      none⟩ : RetrievedChunk)]).length = 400 := by decide
  have h30 : (LLMLinguaCompressor.compress ⟨[], 1 / 2, [], false⟩
      (fun _ _ _ _ => some (List.replicate 120 'b'))
      (format_context [(⟨List.replicate 387 'a', none, none, none,
        none⟩ : RetrievedChunk)])
      (some "q".data) true).compressed_tokens = 30 := by decide
  have ho : (100 : ℤ) = (((format_context [(⟨List.replicate 387 'a', none, none, none,
      none⟩ : RetrievedChunk)]).length / 4 : ℕ) : ℤ) := by
    rw [h400]; norm_num
  have hc : (30 : ℤ) = ((LLMLinguaCompressor.compress ⟨[], 1 / 2, [], false⟩
      (fun _ _ _ _ => some (List.replicate 120 'b'))
      (format_context [(⟨List.replicate 387 'a', none, none, none,
        none⟩ : RetrievedChunk)])
      (some "q".data) true).compressed_tokens : ℤ) := by
    rw [h30]
    norm_num
  refine ⟨ho, hc, by decide, rfl, ?_⟩
  have hthm := token_stats_aggregation ⟨10, true⟩
    (fun _ _ _ => [⟨List.replicate 387 'a', none, none, none, none⟩])
    ⟨[], 1 / 2, [], false⟩ (fun _ _ _ _ => some (List.replicate 120 'b'))
    (fun _ _ => "ans".data) "q".data none true 100 30 ho hc (by decide) rfl
  rw [hthm]
  norm_num

/-! ## C1 — decimal digits and placeholder structure -/

theorem natDigitsF_irrel : ∀ n f, n < f → natDigitsF f n = natDigits n := by
  intro n
  induction n using Nat.strong_induction_on with
  | _ n ih =>
    intro f hf
    match f, hf with
    | f + 1, _ =>
      show natDigitsF (f + 1) n = natDigitsF (n + 1) n
      by_cases h10 : n < 10
      · simp [natDigitsF, h10]
      · have hdiv : n / 10 < n := Nat.div_lt_self (by omega) (by omega)
        have h1 : natDigitsF f (n / 10) = natDigits (n / 10) :=
          ih (n / 10) hdiv f (by omega)
        have h2 : natDigitsF n (n / 10) = natDigits (n / 10) :=
          ih (n / 10) hdiv n (by omega)
        simp [natDigitsF, h10, h1, h2]

theorem natDigits_small {n : ℕ} (h : n < 10) : natDigits n = [digitChar n] := by
  simp [natDigits, natDigitsF, h]

theorem natDigits_big {n : ℕ} (h : ¬ n < 10) :
    natDigits n = natDigits (n / 10) ++ [digitChar (n % 10)] := by
  have hdiv : n / 10 < n := Nat.div_lt_self (by omega) (by omega)
  show natDigitsF (n + 1) n = _
  simp [natDigitsF, h, natDigitsF_irrel (n / 10) n hdiv]

theorem digitChar_isDigit {d : ℕ} (h : d < 10) : (digitChar d).isDigit = true := by
  interval_cases d <;> decide

theorem natDigits_digits (n : ℕ) : ∀ c ∈ natDigits n, c.isDigit = true := by
  induction n using Nat.strong_induction_on with
  | _ n ih =>
    by_cases h10 : n < 10
    · rw [natDigits_small h10]
      intro c hc
      rw [List.mem_singleton] at hc
      subst hc
      exact digitChar_isDigit h10
    · rw [natDigits_big h10]
      intro c hc
      rcases List.mem_append.mp hc with hc | hc
      · exact ih (n / 10) (Nat.div_lt_self (by omega) (by omega)) c hc
      · rw [List.mem_singleton] at hc
        subst hc
        exact digitChar_isDigit (Nat.mod_lt n (by omega))

theorem natDigits_ne_nil (n : ℕ) : natDigits n ≠ [] := by
  by_cases h10 : n < 10
  · rw [natDigits_small h10]; simp
  · rw [natDigits_big h10]; simp

theorem digitChar_toNat {d : ℕ} (h : d < 10) : (digitChar d).toNat = 48 + d := by
  interval_cases d <;> decide

theorem parse_digits_append (xs : List Char) (d : Char) :
    (xs ++ [d]).foldl (fun acc c => 10 * acc + (c.toNat - 48)) 0 =
      10 * xs.foldl (fun acc c => 10 * acc + (c.toNat - 48)) 0 + (d.toNat - 48) := by
  rw [List.foldl_append]
  rfl

theorem parse_natDigits (n : ℕ) :
    (natDigits n).foldl (fun acc c => 10 * acc + (c.toNat - 48)) 0 = n := by
  induction n using Nat.strong_induction_on with
  | _ n ih =>
    by_cases h10 : n < 10
    · rw [natDigits_small h10]
      simp [digitChar_toNat h10]
    · rw [natDigits_big h10, parse_digits_append,
        ih (n / 10) (Nat.div_lt_self (by omega) (by omega)),
        digitChar_toNat (Nat.mod_lt n (by omega))]
      omega

theorem natDigits_injective {m n : ℕ} (h : natDigits m = natDigits n) : m = n := by
  have := parse_natDigits m
  rw [h, parse_natDigits n] at this
  omega

theorem isDigit_ne_underscore {c : Char} (h : c.isDigit = true) : c ≠ '_' := by
  intro he
  subst he
  exact absurd h (by decide)

theorem natDigits_no_underscore (n : ℕ) : ∀ c ∈ natDigits n, c ≠ '_' :=
  fun c hc => isDigit_ne_underscore (natDigits_digits n c hc)

/-- Canonical shape of a placeholder. -/
theorem placeholder_shape (i j : ℕ) :
    placeholder i j = '_' :: '_' ::
      ("CITATION_".data ++ natDigits i ++ '_' :: natDigits j ++ ['_', '_']) := by
  show "__CITATION_".data ++ natDigits i ++ "_".data ++ natDigits j ++ "__".data = _
  simp [List.append_assoc]

theorem placeholder_getLast (i j : ℕ) : (placeholder i j).getLast? = some '_' := by
  rw [placeholder_shape]
  have : ("CITATION_".data ++ natDigits i ++ '_' :: natDigits j ++ ['_', '_']) =
      ("CITATION_".data ++ natDigits i ++ '_' :: natDigits j ++ ['_']) ++ ['_'] := by
    simp
  simp only [this]
  rw [show ('_' :: '_' :: (("CITATION_".data ++ natDigits i ++ '_' :: natDigits j ++
      ['_']) ++ ['_'])) = ('_' :: '_' :: ("CITATION_".data ++ natDigits i ++
      '_' :: natDigits j ++ ['_'])) ++ ['_'] from by simp]
  exact List.getLast?_concat _

theorem dot_not_mem_placeholder (i j : ℕ) : '.' ∉ placeholder i j := by
  rw [placeholder_shape]
  intro hmem
  rcases List.mem_cons.mp hmem with h | hmem
  · exact absurd h (by decide)
  rcases List.mem_cons.mp hmem with h | hmem
  · exact absurd h (by decide)
  rcases List.mem_append.mp hmem with hmem | h
  swap
  · revert h; decide
  rcases List.mem_append.mp hmem with hmem | hmem
  · rcases List.mem_append.mp hmem with h | h
    · revert h; decide
    · exact absurd (natDigits_digits i '.' h) (by decide)
  · rcases List.mem_cons.mp hmem with h | h
    · exact absurd h (by decide)
    · exact absurd (natDigits_digits j '.' h) (by decide)

/-! ## C1 — prefix/suffix utilities -/

theorem prefix_append_cases {p a b : Str} (h : p <+: a ++ b) : p <+: a ∨ a <+: p := by
  induction a generalizing p with
  | nil => exact Or.inr (List.nil_prefix)
  | cons c a' ih =>
    cases p with
    | nil => exact Or.inl (List.nil_prefix)
    | cons d p' =>
      obtain ⟨t, ht⟩ := h
      rw [List.cons_append, List.cons_append] at ht
      obtain ⟨hd, ht'⟩ := List.cons.inj ht
      subst hd
      rcases ih ⟨t, ht'⟩ with h' | h'
      · exact Or.inl (List.cons_prefix_cons.mpr ⟨rfl, h'⟩)
      · exact Or.inr (List.cons_prefix_cons.mpr ⟨rfl, h'⟩)

theorem suffix_append_cases {v a b : Str} (h : v <:+ a ++ b) :
    v <:+ b ∨ ∃ a', a' <:+ a ∧ a' ≠ [] ∧ v = a' ++ b := by
  induction a generalizing v with
  | nil => exact Or.inl (by simpa using h)
  | cons c a' ih =>
    rw [List.cons_append, List.suffix_cons_iff] at h
    rcases h with h | h
    · exact Or.inr ⟨c :: a', List.suffix_refl _, by simp, by rw [h, List.cons_append]⟩
    · rcases ih h with h' | ⟨w, hw, hwne, hveq⟩
      · exact Or.inl h'
      · exact Or.inr ⟨w, hw.trans (List.suffix_cons c a'), hwne, hveq⟩

theorem prefix_of_prefix_append {p a b : Str} (h : p <+: a ++ b)
    (hlen : p.length ≤ a.length) : p <+: a := by
  rcases prefix_append_cases h with h' | h'
  · exact h'
  · have : a.length ≤ p.length := h'.length_le
    have heq : a = p := by
      obtain ⟨t, ht⟩ := h'
      have : t = [] := by
        have := congrArg List.length ht
        simp only [List.length_append] at this
        have : t.length = 0 := by omega
        exact List.length_eq_zero.mp this
      rw [this, List.append_nil] at ht
      exact ht
    rw [heq]

theorem underscore_free_prefix_eq {a b x y : Str} (ha : ∀ c ∈ a, c ≠ '_')
    (hb : ∀ c ∈ b, c ≠ '_') (h : a ++ '_' :: x = b ++ '_' :: y) : a = b ∧ x = y := by
  induction a generalizing b with
  | nil =>
    cases b with
    | nil => simpa using h
    | cons d b' =>
      rw [List.nil_append, List.cons_append] at h
      obtain ⟨hd, _⟩ := List.cons.inj h
      exact absurd hd.symm (hb d (List.mem_cons_self d b'))
  | cons c a' ih =>
    cases b with
    | nil =>
      rw [List.nil_append, List.cons_append] at h
      obtain ⟨hd, _⟩ := List.cons.inj h
      exact absurd hd (ha c (List.mem_cons_self c a'))
    | cons d b' =>
      rw [List.cons_append, List.cons_append] at h
      obtain ⟨hd, ht⟩ := List.cons.inj h
      subst hd
      obtain ⟨h1, h2⟩ := ih (fun e he => ha e (List.mem_cons_of_mem c he))
        (fun e he => hb e (List.mem_cons_of_mem c he)) ht
      exact ⟨by rw [h1], h2⟩

theorem digits_prefix_cancel {d₁ d₂ r₁ r₂ : Str}
    (h1 : ∀ c ∈ d₁, c.isDigit = true) (h2 : ∀ c ∈ d₂, c.isDigit = true)
    (hp : d₁ ++ '_' :: r₁ <+: d₂ ++ '_' :: r₂) : d₁ = d₂ ∧ r₁ <+: r₂ := by
  induction d₁ generalizing d₂ with
  | nil =>
    cases d₂ with
    | nil => simpa using hp
    | cons c d₂' =>
      rw [List.nil_append, List.cons_append] at hp
      obtain ⟨t, ht⟩ := hp
      rw [List.cons_append] at ht
      obtain ⟨hd, _⟩ := List.cons.inj ht
      exact absurd hd.symm
        (isDigit_ne_underscore (h2 c (List.mem_cons_self c d₂')))
  | cons c d₁' ih =>
    cases d₂ with
    | nil =>
      rw [List.nil_append, List.cons_append] at hp
      obtain ⟨t, ht⟩ := hp
      rw [List.cons_append] at ht
      obtain ⟨hd, _⟩ := List.cons.inj ht
      exact absurd hd (isDigit_ne_underscore (h1 c (List.mem_cons_self c d₁')))
    | cons e d₂' =>
      rw [List.cons_append, List.cons_append] at hp
      obtain ⟨t, ht⟩ := hp
      rw [List.cons_append] at ht
      obtain ⟨hd, ht'⟩ := List.cons.inj ht
      subst hd
      obtain ⟨hh, hr⟩ := ih (fun e he => h1 e (List.mem_cons_of_mem c he))
        (fun e he => h2 e (List.mem_cons_of_mem c he))
        ⟨t, ht'⟩
      exact ⟨by rw [hh], hr⟩

/-- Distinct placeholders are prefix-incomparable, even with arbitrary text
appended. -/
theorem placeholder_incomparable {i j i' j' : ℕ} (hne : ¬ (i = i' ∧ j = j'))
    (t : Str) : ¬ placeholder i j <+: placeholder i' j' ++ t := by
  intro h
  have key : ∀ {a b a' b' : ℕ}, placeholder a b <+: placeholder a' b' →
      a = a' ∧ b = b' := by
    intro a b a' b' hp
    unfold placeholder at hp
    rw [List.append_assoc, List.append_assoc, List.append_assoc, List.append_assoc,
      List.append_assoc, List.append_assoc] at hp
    rw [List.prefix_append_right_inj] at hp
    have hp2 : natDigits a ++ '_' :: (natDigits b ++ '_' :: ['_']) <+:
        natDigits a' ++ '_' :: (natDigits b' ++ '_' :: ['_']) := by
      simpa using hp
    obtain ⟨hda, hrest⟩ := digits_prefix_cancel (natDigits_digits a)
      (natDigits_digits a') hp2
    obtain ⟨hdb, _⟩ := digits_prefix_cancel (natDigits_digits b)
      (natDigits_digits b') hrest
    exact ⟨natDigits_injective hda, natDigits_injective hdb⟩
  rcases prefix_append_cases h with h' | h'
  · exact hne (key h')
  · have := key h'
    exact hne ⟨this.1.symm, this.2.symm⟩

/-! ## C1 — equations and walking lemmas for replace -/

theorem suffix_getLast? {v l : Str} (hv : v <:+ l) (hne : v ≠ []) :
    v.getLast? = l.getLast? := by
  obtain ⟨u, hu⟩ := hv
  cases hlast : v.getLast? with
  | none => exact absurd (List.getLast?_eq_none_iff.mp hlast) hne
  | some x =>
    rw [← hu, List.getLast?_append, hlast]
    rfl

theorem replAllF_irrel (pat rep : Str) :
    ∀ (f₁ f₂ : ℕ) (s : Str), s.length ≤ f₁ → s.length ≤ f₂ →
      replAllF pat rep f₁ s = replAllF pat rep f₂ s := by
  intro f₁
  induction f₁ with
  | zero =>
    intro f₂ s h1 _
    have : s = [] := List.length_eq_zero.mp (Nat.le_zero.mp h1)
    subst this
    cases f₂ <;> rfl
  | succ g ih =>
    intro f₂ s h1 h2
    cases s with
    | nil => cases f₂ <;> rfl
    | cons c s' =>
      cases f₂ with
      | zero => simp at h2
      | succ g₂ =>
        simp only [replAllF]
        by_cases hb : (pat.isPrefixOf (c :: s') && !pat.isEmpty) = true
        · rw [if_pos hb, if_pos hb]
          have hpe : pat ≠ [] := by
            have := (Bool.and_eq_true _ _).mp hb
            simpa using this.2
          have hplen : 1 ≤ pat.length := by
            cases pat with
            | nil => exact absurd rfl hpe
            | cons _ _ => simp
          have hdlen : ((c :: s').drop pat.length).length ≤ s'.length := by
            rw [List.length_drop]
            simp only [List.length_cons]
            omega
          rw [ih g₂ _ (by simp at h1; omega) (by simp at h2; omega)]
        · rw [if_neg hb, if_neg hb]
          rw [ih g₂ s' (by simp at h1; omega) (by simp at h2; omega)]

theorem replAll_cons_eq (pat rep : Str) (c : Char) (s : Str) :
    replAll pat rep (c :: s) =
      if pat.isPrefixOf (c :: s) && !pat.isEmpty then
        rep ++ replAll pat rep ((c :: s).drop pat.length)
      else c :: replAll pat rep s := by
  show replAllF pat rep (s.length + 1) (c :: s) = _
  simp only [replAllF]
  by_cases hb : (pat.isPrefixOf (c :: s) && !pat.isEmpty) = true
  · rw [if_pos hb, if_pos hb]
    have hdlen : ((c :: s).drop pat.length).length ≤ s.length := by
      rw [List.length_drop]
      simp only [List.length_cons]
      have hpe : pat ≠ [] := by
        have := (Bool.and_eq_true _ _).mp hb
        simpa using this.2
      have : 1 ≤ pat.length := by
        cases pat with
        | nil => exact absurd rfl hpe
        | cons _ _ => simp
      omega
    rw [replAllF_irrel pat rep s.length ((c :: s).drop pat.length).length _ hdlen le_rfl]
    rfl
  · rw [if_neg hb, if_neg hb]
    rfl

theorem replAll_cons_not_prefix {pat rep : Str} {c : Char} {s : Str}
    (h : ¬ pat <+: (c :: s)) :
    replAll pat rep (c :: s) = c :: replAll pat rep s := by
  rw [replAll_cons_eq, if_neg]
  intro hb
  exact h (List.isPrefixOf_iff_prefix.mp ((Bool.and_eq_true _ _).mp hb).1)

theorem replAll_append_left {pat rep : Str} (w t : Str)
    (h : ∀ v, v <:+ w → v ≠ [] → ¬ pat <+: v ++ t) :
    replAll pat rep (w ++ t) = w ++ replAll pat rep t := by
  induction w with
  | nil => simp
  | cons c w' ih =>
    rw [List.cons_append,
      replAll_cons_not_prefix (by
        have := h (c :: w') (List.suffix_refl _) (by simp)
        rwa [List.cons_append] at this),
      ih fun v hv hne => h v (hv.trans (List.suffix_cons c w')) hne]
    rfl

theorem replFirst_cons_eq (pat rep : Str) (c : Char) (s : Str) :
    replFirst pat rep (c :: s) =
      if pat.isPrefixOf (c :: s) && !pat.isEmpty then rep ++ (c :: s).drop pat.length
      else c :: replFirst pat rep s := rfl

theorem replFirst_cons_not_prefix {pat rep : Str} {c : Char} {s : Str}
    (h : ¬ pat <+: (c :: s)) :
    replFirst pat rep (c :: s) = c :: replFirst pat rep s := by
  rw [replFirst_cons_eq, if_neg]
  intro hb
  exact h (List.isPrefixOf_iff_prefix.mp ((Bool.and_eq_true _ _).mp hb).1)

theorem replFirst_append_left {pat rep : Str} (w t : Str)
    (h : ∀ v, v <:+ w → v ≠ [] → ¬ pat <+: v ++ t) :
    replFirst pat rep (w ++ t) = w ++ replFirst pat rep t := by
  induction w with
  | nil => simp
  | cons c w' ih =>
    rw [List.cons_append,
      replFirst_cons_not_prefix (by
        have := h (c :: w') (List.suffix_refl _) (by simp)
        rwa [List.cons_append] at this),
      ih fun v hv hne => h v (hv.trans (List.suffix_cons c w')) hne]
    rfl

/-! ## C1 — token-list rendering utilities -/

theorem renderP_nil : renderP [] = [] := rfl

theorem renderP_cons (t : Tok) (L : List Tok) :
    renderP (t :: L) = t.render ++ renderP L := rfl

theorem renderF_nil (f : ℕ → ℕ → Str) : renderF f [] = [] := rfl

theorem renderF_cons_plain (f : ℕ → ℕ → Str) (s : Str) (L : List Tok) :
    renderF f (Tok.plain s :: L) = s ++ renderF f L := rfl

theorem renderF_cons_hole (f : ℕ → ℕ → Str) (i j : ℕ) (L : List Tok) :
    renderF f (Tok.hole i j :: L) = f i j ++ renderF f L := rfl

theorem holeKeys_nil : holeKeys [] = [] := rfl

theorem holeKeys_cons_plain (s : Str) (L : List Tok) :
    holeKeys (Tok.plain s :: L) = holeKeys L := rfl

theorem holeKeys_cons_hole (i j : ℕ) (L : List Tok) :
    holeKeys (Tok.hole i j :: L) = (i, j) :: holeKeys L := rfl

theorem renderP_mkPlain (s : Str) (L : List Tok) :
    renderP (mkPlain s L) = s ++ renderP L := by
  unfold mkPlain
  by_cases hs : s.isEmpty
  · rw [if_pos hs, List.isEmpty_iff.mp hs, List.nil_append]
  · rw [if_neg hs, renderP_cons]
    rfl

theorem renderF_mkPlain (f : ℕ → ℕ → Str) (s : Str) (L : List Tok) :
    renderF f (mkPlain s L) = s ++ renderF f L := by
  unfold mkPlain
  by_cases hs : s.isEmpty
  · rw [if_pos hs, List.isEmpty_iff.mp hs, List.nil_append]
  · rw [if_neg hs, renderF_cons_plain]

theorem holeKeys_mkPlain (s : Str) (L : List Tok) :
    holeKeys (mkPlain s L) = holeKeys L := by
  unfold mkPlain
  by_cases hs : s.isEmpty
  · rw [if_pos hs]
  · rw [if_neg hs, holeKeys_cons_plain]

theorem normH_normT {L : List Tok} (h : NormH L) : NormT L := by
  cases h with
  | nil => exact NormT.nil
  | hole i j L h' => exact NormT.hole i j L h'

theorem normT_mkPlain {s : Str} {L : List Tok} (hfree : ∀ ch ∈ s, ch ≠ '_')
    (hH : NormH L) : NormT (mkPlain s L) := by
  unfold mkPlain
  by_cases hs : s.isEmpty
  · rw [if_pos hs]
    exact normH_normT hH
  · rw [if_neg hs]
    exact NormT.plain s L (fun he => hs (by rw [he]; rfl)) hfree hH

theorem normT_inv_plain {s : Str} {L : List Tok} (h : NormT (Tok.plain s :: L)) :
    (∀ ch ∈ s, ch ≠ '_') ∧ NormH L := by
  cases h with
  | plain s L hne hfree h' => exact ⟨hfree, h'⟩

theorem normT_inv_hole {i j : ℕ} {L : List Tok} (h : NormT (Tok.hole i j :: L)) :
    NormT L := by
  cases h with
  | hole i j L h' => exact h'

theorem normH_inv_hole {i j : ℕ} {L : List Tok} (h : NormH (Tok.hole i j :: L)) :
    NormT L := by
  cases h with
  | hole i j L h' => exact h'

theorem normT_or_normH_plainsFree : ∀ L : List Tok, NormT L ∨ NormH L → PlainsFree L := by
  intro L
  induction L with
  | nil => intro _ s hs; exact absurd hs (List.not_mem_nil _)
  | cons t L' ih =>
    intro h s hs ch hch
    have hT : NormT (t :: L') := by
      rcases h with h | h
      · exact h
      · exact normH_normT h
    cases t with
    | plain s' =>
      obtain ⟨hfree, hH⟩ := normT_inv_plain hT
      rcases List.mem_cons.mp hs with heq | hmem
      · obtain rfl : s = s' := Tok.plain.inj heq
        exact hfree ch hch
      · exact ih (Or.inr hH) s hmem ch hch
    | hole i j =>
      have hT' := normT_inv_hole hT
      rcases List.mem_cons.mp hs with heq | hmem
      · exact absurd heq (by simp)
      · exact ih (Or.inl hT') s hmem ch hch

theorem normT_plainsFree {L : List Tok} (h : NormT L) : PlainsFree L :=
  normT_or_normH_plainsFree L (Or.inl h)

theorem plainsFree_cons {t : Tok} {L : List Tok} (h : PlainsFree (t :: L)) :
    PlainsFree L := fun s hs => h s (List.mem_cons_of_mem _ hs)

theorem plainsFree_head {s : Str} {L : List Tok}
    (h : PlainsFree (Tok.plain s :: L)) : ∀ ch ∈ s, ch ≠ '_' :=
  h s (List.mem_cons_self _ _)

theorem prefix_head {a : Char} {u z : Str} (h : (a :: u) <+: z) :
    z.head? = some a := by
  obtain ⟨t, rfl⟩ := h
  rfl

/-- Master occurrence lemma: the rendering of a plains-underscore-free token
list has no prefix of the form `a ++ '_' :: w` with `a` underscore-free and
`w` nonempty not starting with `'_'` (every underscore run in the rendering
is a placeholder's, of length ≥ 2 or terminal). -/
theorem renderP_no_marked_block {w : Str} (hwne : w ≠ []) (hw : w.head? ≠ some '_') :
    ∀ (L : List Tok) (a : Str), PlainsFree L → (∀ ch ∈ a, ch ≠ '_') →
      ¬ (a ++ '_' :: w) <+: renderP L := by
  intro L
  induction L with
  | nil =>
    intro a _ _ h
    rw [renderP_nil, List.prefix_nil] at h
    exact absurd h (by simp)
  | cons t L' ih =>
    intro a hPF hfa h
    cases t with
    | plain s =>
      rw [renderP_cons] at h
      rcases prefix_append_cases h with hps | hsp
      · have h_us : '_' ∈ s := hps.subset (by simp)
        exact (hPF s (List.mem_cons_self _ _) '_' h_us) rfl
      · by_cases hlen : s.length ≤ a.length
        · have hsa : s <+: a :=
            List.prefix_of_prefix_length_le hsp (List.prefix_append a ('_' :: w)) hlen
          obtain ⟨a', rfl⟩ := hsa
          have htail : (a' ++ '_' :: w) <+: renderP L' := by
            rw [List.append_assoc] at h
            exact (List.prefix_append_right_inj s).mp h
          exact ih a' (plainsFree_cons hPF)
            (fun ch hch => hfa ch (List.mem_append_right s hch)) htail
        · have h1 : a ++ ['_'] <+: a ++ '_' :: w := ⟨w, by simp⟩
          have h2 : a ++ ['_'] <+: s :=
            List.prefix_of_prefix_length_le h1 hsp (by simp; omega)
          have : '_' ∈ s := h2.subset (by simp)
          exact (hPF s (List.mem_cons_self _ _) '_' this) rfl
    | hole i j =>
      rw [renderP_cons] at h
      show False
      cases a with
      | nil =>
        rw [List.nil_append] at h
        rw [show (Tok.hole i j).render = placeholder i j from rfl,
          placeholder_shape, List.cons_append, List.cons_append,
          List.cons_prefix_cons] at h
        obtain ⟨-, h⟩ := h
        cases w with
        | nil => exact hwne rfl
        | cons w₀ w' =>
          rw [List.cons_prefix_cons] at h
          exact hw (by rw [List.head?_cons, h.1])
      | cons a₀ a' =>
        rw [List.cons_append] at h
        have hhd := prefix_head h
        rw [show (Tok.hole i j).render = placeholder i j from rfl,
          placeholder_shape, List.cons_append] at hhd
        simp only [List.head?_cons, Option.some.injEq] at hhd
        exact hfa a₀ (List.mem_cons_self _ _) hhd.symm

/-! ## C1 — no placeholder occurrence crosses a hole boundary -/

theorem suffix_citation_head_underscore {v' : Str} (h : v' <:+ "CITATION_".data)
    (hhd : v'.head? = some '_') : v' = ['_'] := by
  obtain ⟨u, hu⟩ := h
  cases v' with
  | nil => exact absurd hhd (by simp)
  | cons c v'' =>
    simp only [List.head?_cons, Option.some.injEq] at hhd
    subst hhd
    have hu2 : u ++ '_' :: v'' = "CITATION".data ++ '_' :: ([] : Str) := by
      rw [hu]; rfl
    have hlen : u.length ≤ ("CITATION".data).length := by
      have h9 := congrArg List.length hu2
      simp only [List.length_append, List.length_cons, List.length_nil] at h9
      rw [show ("CITATION".data).length = 8 from rfl]
      omega
    have hupre : u <+: "CITATION".data :=
      prefix_of_prefix_append ⟨'_' :: v'', hu2⟩ hlen
    have hufree : ∀ ch ∈ u, ch ≠ '_' := by
      have hall : ∀ x ∈ "CITATION".data, x ≠ '_' := by decide
      exact fun ch hch => hall ch (hupre.subset hch)
    obtain ⟨-, h2⟩ := underscore_free_prefix_eq hufree (by decide) hu2
    rw [h2]

theorem placeholder_prefix_head {i j : ℕ} {z : Str} (h : placeholder i j <+: z) :
    z.head? = some '_' := by
  rw [placeholder_shape] at h
  exact prefix_head h

theorem placeholder_not_prefix_digit {i j : ℕ} {c : Char} (hc : c.isDigit = true)
    {z : Str} : ¬ placeholder i j <+: c :: z := by
  intro h
  have := placeholder_prefix_head h
  simp only [List.head?_cons, Option.some.injEq] at this
  exact isDigit_ne_underscore hc this

theorem placeholder_prefix_strip {i j : ℕ} {z : Str}
    (h : placeholder i j <+: '_' :: '_' :: z) :
    ("CITATION_".data ++ (natDigits i ++ '_' :: (natDigits j ++ ['_', '_']))) <+: z := by
  rw [placeholder_shape, List.cons_prefix_cons, List.cons_prefix_cons] at h
  simpa using h.2.2

theorem placeholder_prefix_strip₁ {i j : ℕ} {z : Str}
    (h : placeholder i j <+: '_' :: z) :
    ('_' :: ("CITATION_".data ++ (natDigits i ++ '_' :: (natDigits j ++ ['_', '_'])))) <+: z := by
  rw [placeholder_shape, List.cons_prefix_cons] at h
  have h2 := h.2
  have : '_' :: ("CITATION_".data ++ natDigits i ++ '_' :: natDigits j ++ ['_', '_']) =
      '_' :: ("CITATION_".data ++ (natDigits i ++ '_' :: (natDigits j ++ ['_', '_']))) := by
    simp [List.append_assoc]
  rwa [this] at h2

theorem renderP_no_citation_tail {i₀ j₀ : ℕ} {L' : List Tok} (hPF : PlainsFree L') :
    ¬ ("CITATION_".data ++ (natDigits i₀ ++ '_' :: (natDigits j₀ ++ ['_', '_']))) <+:
      renderP L' := by
  have hform : "CITATION_".data ++ (natDigits i₀ ++ '_' :: (natDigits j₀ ++ ['_', '_'])) =
      "CITATION".data ++ '_' :: (natDigits i₀ ++ '_' :: (natDigits j₀ ++ ['_', '_'])) := by
    rw [show "CITATION_".data = "CITATION".data ++ ['_'] from rfl, List.append_assoc]
    rfl
  rw [hform]
  apply renderP_no_marked_block (by simp) ?hd L' "CITATION".data hPF (by decide)
  cases hdi : natDigits i₀ with
  | nil => exact absurd hdi (natDigits_ne_nil i₀)
  | cons d ds =>
    have hd : d.isDigit = true := natDigits_digits i₀ d (hdi ▸ List.mem_cons_self d ds)
    simp only [List.cons_append, List.head?_cons, ne_eq, Option.some.injEq]
    exact fun he => isDigit_ne_underscore hd he

theorem renderP_no_underscore_citation {i₀ j₀ : ℕ} {L' : List Tok} (hPF : PlainsFree L') :
    ¬ ('_' :: ("CITATION_".data ++ (natDigits i₀ ++ '_' :: (natDigits j₀ ++ ['_', '_'])))) <+:
      renderP L' := by
  have h0 := @renderP_no_marked_block
    ("CITATION_".data ++ (natDigits i₀ ++ '_' :: (natDigits j₀ ++ ['_', '_'])))
    (by simp) (by rw [show "CITATION_".data = 'C' :: "ITATION_".data from rfl]; simp)
    L' [] hPF (by simp)
  simpa using h0

theorem digits_head_contra {n : ℕ} {X Y : Str}
    (h : ('_' :: X) <+: natDigits n ++ Y) : False := by
  cases hdn : natDigits n with
  | nil => exact absurd hdn (natDigits_ne_nil n)
  | cons d ds =>
    rw [hdn, List.cons_append, List.cons_prefix_cons] at h
    exact isDigit_ne_underscore
      (natDigits_digits n d (hdn ▸ List.mem_cons_self d ds)) h.1.symm

theorem citation_head_contra {X Y : Str}
    (h : ('_' :: X) <+: "CITATION_".data ++ Y) : False := by
  rw [show "CITATION_".data = 'C' :: "ITATION_".data from rfl, List.cons_append,
    List.cons_prefix_cons] at h
  exact absurd h.1 (by decide)

/-- No occurrence of a distinct placeholder starts inside a rendered
placeholder: for every nonempty suffix `v` of `placeholder i j`, the string
`v ++ renderP L'` does not start with `placeholder i₀ j₀`. -/
theorem placeholder_no_cross {i j i₀ j₀ : ℕ} (hne : ¬ (i₀ = i ∧ j₀ = j))
    {L' : List Tok} (hPF : PlainsFree L') :
    ∀ v, v <:+ placeholder i j → v ≠ [] → ¬ placeholder i₀ j₀ <+: v ++ renderP L' := by
  intro v hv hvne hpre
  rw [placeholder_shape] at hv
  rcases List.suffix_cons_iff.mp hv with hv | hv
  · -- the whole placeholder
    rw [← placeholder_shape] at hv
    rw [hv] at hpre
    exact placeholder_incomparable hne _ hpre
  rcases List.suffix_cons_iff.mp hv with hv | hv
  · -- one leading underscore dropped: v = '_' :: ("CITATION_..." ++ ...)
    rw [hv] at hpre
    simp only [List.cons_append, List.append_assoc] at hpre
    exact citation_head_contra (placeholder_prefix_strip₁ hpre)
  -- v is a suffix of `"CITATION_" ++ di ++ '_' :: dj ++ "__"`
  rcases suffix_append_cases hv with hv | ⟨v', hv', hv'ne, rfl⟩
  · -- v is a suffix of the final "__"
    rcases List.suffix_cons_iff.mp hv with hv | hv
    · -- v = "__": a full placeholder body would have to follow in renderP L'
      rw [hv] at hpre
      simp only [List.cons_append, List.nil_append] at hpre
      exact renderP_no_citation_tail hPF (placeholder_prefix_strip hpre)
    rcases List.suffix_cons_iff.mp hv with hv | hv
    · -- v = "_": an underscore-headed citation block would have to follow
      rw [hv] at hpre
      simp only [List.cons_append, List.nil_append] at hpre
      exact renderP_no_underscore_citation hPF (placeholder_prefix_strip₁ hpre)
    · exact hvne (List.suffix_nil.mp hv)
  · -- v = v' ++ "__" with v' a nonempty suffix of `"CITATION_" ++ di ++ '_' :: dj`
    rcases suffix_append_cases hv' with hv' | ⟨v'', hv'', hv''ne, rfl⟩
    · -- v' is a suffix of '_' :: dj
      rcases List.suffix_cons_iff.mp hv' with hv' | hv'
      · -- v' = '_' :: dj
        rw [hv'] at hpre
        simp only [List.cons_append, List.append_assoc] at hpre
        exact digits_head_contra (placeholder_prefix_strip₁ hpre)
      · -- v' is a nonempty suffix of the digits of j
        cases v' with
        | nil => exact hv'ne rfl
        | cons c v₄ =>
          simp only [List.cons_append, List.append_assoc] at hpre
          exact placeholder_not_prefix_digit
            (natDigits_digits j c (hv'.subset (List.mem_cons_self c v₄))) hpre
    · -- v' = v'' ++ '_' :: dj with v'' a nonempty suffix of `"CITATION_" ++ di`
      rcases suffix_append_cases hv'' with hv'' | ⟨v₃, hv₃, hv₃ne, rfl⟩
      · -- v'' is a nonempty suffix of the digits of i
        cases v'' with
        | nil => exact hv''ne rfl
        | cons c v₄ =>
          simp only [List.cons_append, List.append_assoc] at hpre
          exact placeholder_not_prefix_digit
            (natDigits_digits i c (hv''.subset (List.mem_cons_self c v₄))) hpre
      · -- v'' = v₃ ++ di with v₃ a nonempty suffix of "CITATION_"
        cases v₃ with
        | nil => exact hv₃ne rfl
        | cons c v₅ =>
          have hh := placeholder_prefix_head hpre
          simp only [List.cons_append, List.append_assoc, List.head?_cons,
            Option.some.injEq] at hh
          have hhd : (c :: v₅).head? = some '_' := by rw [List.head?_cons, hh]
          have hv₃eq := suffix_citation_head_underscore hv₃ hhd
          rw [hv₃eq] at hpre
          simp only [List.singleton_append, List.cons_append, List.append_assoc] at hpre
          exact digits_head_contra (placeholder_prefix_strip₁ hpre)

/-! ## C1 — the restore fold substitutes holes by their citations -/

theorem underscore_pat_skip_plain {s t : Str} (hfree : ∀ ch ∈ s, ch ≠ '_')
    {X : Str} : ∀ v, v <:+ s → v ≠ [] → ¬ ('_' :: X) <+: v ++ t := by
  intro v hv hvne h
  cases v with
  | nil => exact hvne rfl
  | cons c v' =>
    rw [List.cons_append, List.cons_prefix_cons] at h
    exact hfree c (hv.subset (List.mem_cons_self c v')) h.1.symm

theorem placeholder_ne_nil (i j : ℕ) : placeholder i j ≠ [] := by
  rw [placeholder_shape]
  simp

theorem replAll_left_match {pat : Str} (rep : Str) (hne : pat ≠ []) (t : Str) :
    replAll pat rep (pat ++ t) = rep ++ replAll pat rep t := by
  cases pat with
  | nil => exact absurd rfl hne
  | cons p₀ ps =>
    show replAll (p₀ :: ps) rep (p₀ :: (ps ++ t)) = _
    rw [replAll_cons_eq, if_pos]
    · rw [show (p₀ :: (ps ++ t)).drop (p₀ :: ps).length = t from by
        rw [List.length_cons, List.drop_succ_cons, List.drop_left]]
    · rw [Bool.and_eq_true]
      exact ⟨List.isPrefixOf_iff_prefix.mpr ⟨t, rfl⟩, by simp⟩

theorem plainsFree_substHole {k : ℕ × ℕ} {c : Str} (hc : ∀ ch ∈ c, ch ≠ '_')
    {L : List Tok} (hPF : PlainsFree L) : PlainsFree (substHole k c L) := by
  intro s hs ch hch
  rw [substHole] at hs
  obtain ⟨t, ht, hts⟩ := List.mem_map.mp hs
  cases t with
  | plain s' =>
    obtain rfl : s' = s := Tok.plain.inj hts
    exact hPF s' ht ch hch
  | hole i' j' =>
    rw [tokSub] at hts
    by_cases hk : (i', j') = k
    · rw [if_pos hk] at hts
      obtain rfl : c = s := Tok.plain.inj hts
      exact hc ch hch
    · rw [if_neg hk] at hts
      exact absurd hts (by simp)

theorem replAll_renderP (k : ℕ × ℕ) (c : Str) :
    ∀ L, PlainsFree L →
      replAll (placeholder k.1 k.2) c (renderP L) = renderP (substHole k c L) := by
  intro L
  induction L with
  | nil => intro _; rfl
  | cons t L' ih =>
    intro hPF
    cases t with
    | plain s =>
      rw [renderP_cons]
      show replAll _ _ (s ++ renderP L') = _
      rw [replAll_append_left s (renderP L') ?skip]
      case skip =>
        intro v hv hvne h
        rw [placeholder_shape] at h
        exact underscore_pat_skip_plain (plainsFree_head hPF) v hv hvne h
      rw [ih (plainsFree_cons hPF)]
      rfl
    | hole i' j' =>
      by_cases hk : (i', j') = k
      · subst hk
        rw [renderP_cons]
        show replAll _ _ (placeholder i' j' ++ renderP L') = _
        rw [replAll_left_match c (placeholder_ne_nil i' j') (renderP L')]
        rw [ih (plainsFree_cons hPF)]
        have hsub : substHole (i', j') c (Tok.hole i' j' :: L') =
            Tok.plain c :: substHole (i', j') c L' := by
          simp [substHole, tokSub]
        rw [hsub, renderP_cons]
        rfl
      · rw [renderP_cons]
        show replAll _ _ (placeholder i' j' ++ renderP L') = _
        rw [replAll_append_left _ _ (placeholder_no_cross
          (fun hand => hk (by rw [← hand.1, ← hand.2])) (plainsFree_cons hPF))]
        rw [ih (plainsFree_cons hPF)]
        have hsub : substHole k c (Tok.hole i' j' :: L') =
            Tok.hole i' j' :: substHole k c L' := by
          simp [substHole, tokSub, hk]
        rw [hsub, renderP_cons]
        rfl

theorem restore_fold : ∀ (keyed : List ((ℕ × ℕ) × Str)) (L : List Tok),
    PlainsFree L → (∀ kc ∈ keyed, ∀ ch ∈ kc.2, ch ≠ '_') →
    List.foldl (fun t e => replAll e.1 e.2 t) (renderP L) (keyed.map toEntry) =
      renderP (keyed.foldl (fun M kc => substHole kc.1 kc.2 M) L) := by
  intro keyed
  induction keyed with
  | nil => intro L _ _; rfl
  | cons kc keyed' ih =>
    intro L hPF hvals
    rw [List.map_cons, List.foldl_cons, List.foldl_cons]
    rw [show (toEntry kc).1 = placeholder kc.1.1 kc.1.2 from rfl,
      show (toEntry kc).2 = kc.2 from rfl]
    rw [replAll_renderP kc.1 kc.2 L hPF]
    exact ih (substHole kc.1 kc.2 L)
      (plainsFree_substHole (hvals kc (List.mem_cons_self _ _)) hPF)
      (fun kc' h => hvals kc' (List.mem_cons_of_mem _ h))

theorem foldl_tokSub_plain : ∀ (keyed : List ((ℕ × ℕ) × Str)) (s : Str),
    keyed.foldl (fun t' kc => tokSub kc.1 kc.2 t') (Tok.plain s) = Tok.plain s := by
  intro keyed
  induction keyed with
  | nil => intro s; rfl
  | cons kc keyed' ih =>
    intro s
    rw [List.foldl_cons, show tokSub kc.1 kc.2 (Tok.plain s) = Tok.plain s from rfl, ih]

theorem foldl_tokSub_hole (f : ℕ → ℕ → Str) :
    ∀ (keyed : List ((ℕ × ℕ) × Str)) (k : ℕ × ℕ),
      k ∈ keyed.map Prod.fst → (∀ kc ∈ keyed, f kc.1.1 kc.1.2 = kc.2) →
      keyed.foldl (fun t' kc => tokSub kc.1 kc.2 t') (Tok.hole k.1 k.2) =
        Tok.plain (f k.1 k.2) := by
  intro keyed
  induction keyed with
  | nil => intro k hk _; simp at hk
  | cons kc keyed' ih =>
    intro k hk hf
    rw [List.foldl_cons]
    by_cases hek : (k.1, k.2) = kc.1
    · have h1 : tokSub kc.1 kc.2 (Tok.hole k.1 k.2) = Tok.plain kc.2 := by
        simp [tokSub, hek]
      rw [h1, foldl_tokSub_plain keyed' kc.2]
      have hfk : f k.1 k.2 = kc.2 := by
        rw [show k.1 = kc.1.1 from by rw [← hek], show k.2 = kc.1.2 from by rw [← hek]]
        exact hf kc (List.mem_cons_self _ _)
      rw [hfk]
    · have h1 : tokSub kc.1 kc.2 (Tok.hole k.1 k.2) = Tok.hole k.1 k.2 := by
        simp [tokSub, hek]
      rw [h1]
      apply ih k ?memk (fun kc' h => hf kc' (List.mem_cons_of_mem _ h))
      case memk =>
        have hk' := hk
        rw [List.map_cons] at hk'
        rcases List.mem_cons.mp hk' with h | h
        · exact absurd h hek
        · exact h

theorem foldl_substHole_map : ∀ (keyed : List ((ℕ × ℕ) × Str)) (L : List Tok),
    keyed.foldl (fun M kc => substHole kc.1 kc.2 M) L =
      L.map (fun t => keyed.foldl (fun t' kc => tokSub kc.1 kc.2 t') t) := by
  intro keyed
  induction keyed with
  | nil => intro L; simp
  | cons kc keyed' ih =>
    intro L
    rw [List.foldl_cons, ih, substHole, List.map_map]
    rfl

theorem substAll_renderF (f : ℕ → ℕ → Str) (keyed : List ((ℕ × ℕ) × Str)) :
    ∀ (L : List Tok),
      (∀ k ∈ holeKeys L, k ∈ keyed.map Prod.fst) →
      (∀ kc ∈ keyed, f kc.1.1 kc.1.2 = kc.2) →
      renderP (keyed.foldl (fun M kc => substHole kc.1 kc.2 M) L) = renderF f L := by
  intro L hcov hf
  rw [foldl_substHole_map]
  induction L with
  | nil => rfl
  | cons t L' ih =>
    rw [List.map_cons, renderP_cons]
    cases t with
    | plain s =>
      rw [renderF_cons_plain, foldl_tokSub_plain]
      rw [ih (fun k hk => hcov k (by rw [holeKeys_cons_plain]; exact hk))]
      rfl
    | hole i j =>
      rw [renderF_cons_hole, foldl_tokSub_hole f keyed (i, j)
        (hcov (i, j) (by rw [holeKeys_cons_hole]; exact List.mem_cons_self _ _)) hf]
      rw [ih (fun k hk => hcov k (by
        rw [holeKeys_cons_hole]; exact List.mem_cons_of_mem _ hk))]
      rfl

/-! ## C1 — every citation match contains a dot and no underscore -/

theorem finditerF_sound (pat : Pattern) : ∀ (fuel : ℕ) (s m : Str),
    m ∈ finditerF pat fuel s → ∃ u r, matchAtoms pat u = some (m, r) := by
  intro fuel
  induction fuel with
  | zero => intro s m hm; simp [finditerF] at hm
  | succ fuel ih =>
    intro s m hm
    rw [finditerF] at hm
    split at hm
    next m₀ r heq =>
      by_cases hemp : m₀.isEmpty
      · rw [if_pos hemp] at hm
        exact ih s.tail m hm
      · rw [if_neg hemp] at hm
        rcases List.mem_cons.mp hm with hm | hm
        · exact ⟨s, r, by rw [heq, hm]⟩
        · exact ih r m hm
    next heq =>
      by_cases hse : s.isEmpty
      · rw [if_pos hse] at hm
        exact absurd hm (List.not_mem_nil m)
      · rw [if_neg hse] at hm
        exact ih s.tail m hm

theorem finditer_sound {pat : Pattern} {m s : Str} (hm : m ∈ finditer pat s) :
    ∃ u r, matchAtoms pat u = some (m, r) :=
  finditerF_sound pat _ s m hm

theorem tryBack_sound (k : Str → Option (Str × Str)) :
    ∀ (revRun rest m r : Str), tryBack k revRun rest = some (m, r) →
      ∃ v m', m = v ++ m' ∧ (∀ ch ∈ v, ch ∈ revRun) ∧
        ∃ rest₂, k rest₂ = some (m', r) := by
  intro revRun
  induction revRun with
  | nil =>
    intro rest m r h
    rw [tryBack] at h
    cases hk : k rest with
    | some p =>
      obtain ⟨m₀, r₀⟩ := p
      rw [hk] at h
      obtain ⟨hm, hr⟩ := Prod.mk.inj (Option.some.inj h)
      exact ⟨[], m, by simp, by simp, rest, by rw [hk, ← hm, ← hr]; simp⟩
    | none => rw [hk] at h; simp at h
  | cons c revRun' ih =>
    intro rest m r h
    rw [tryBack] at h
    cases hk : k rest with
    | some p =>
      obtain ⟨m₀, r₀⟩ := p
      rw [hk] at h
      obtain ⟨hm, hr⟩ := Prod.mk.inj (Option.some.inj h)
      refine ⟨(c :: revRun').reverse, m₀, hm.symm, ?_, rest, by rw [hk, hr]⟩
      intro ch hch
      exact List.mem_reverse.mp hch
    | none =>
      rw [hk] at h
      obtain ⟨v, m', hsplit, hchars, rest₂, hk₂⟩ := ih (c :: rest) m r h
      exact ⟨v, m', hsplit, fun ch hch => List.mem_cons_of_mem c (hchars ch hch),
        rest₂, hk₂⟩

theorem matchAtoms_chars : ∀ (pat : Pattern) (s m r : Str),
    matchAtoms pat s = some (m, r) → ∀ ch ∈ m, ∃ a ∈ pat, atomOK a ch := by
  intro pat
  induction pat with
  | nil =>
    intro s m r h ch hch
    rw [matchAtoms] at h
    obtain ⟨hm, hr⟩ := Prod.mk.inj (Option.some.inj h)
    rw [← hm] at hch
    simp at hch
  | cons a as ih =>
    intro s m r h ch hch
    cases a with
    | lit c =>
      cases s with
      | nil => simp [matchAtoms] at h
      | cons d s' =>
        rw [matchAtoms] at h
        by_cases hdc : d = c
        · rw [if_pos hdc] at h
          cases hma : matchAtoms as s' with
          | none => rw [hma] at h; simp at h
          | some p =>
            obtain ⟨m', r'⟩ := p
            rw [hma] at h
            obtain ⟨hm, hr⟩ := Prod.mk.inj (Option.some.inj h)
            rw [← hm] at hch
            rcases List.mem_cons.mp hch with hch | hch
            · exact ⟨.lit c, List.mem_cons_self _ _, by rw [hch]; exact hdc⟩
            · obtain ⟨a', ha', hok⟩ := ih s' m' r' hma ch hch
              exact ⟨a', List.mem_cons_of_mem _ ha', hok⟩
        · rw [if_neg hdc] at h; simp at h
    | one p =>
      cases s with
      | nil => simp [matchAtoms] at h
      | cons d s' =>
        rw [matchAtoms] at h
        by_cases hpd : p d = true
        · rw [if_pos hpd] at h
          cases hma : matchAtoms as s' with
          | none => rw [hma] at h; simp at h
          | some q =>
            obtain ⟨m', r'⟩ := q
            rw [hma] at h
            obtain ⟨hm, hr⟩ := Prod.mk.inj (Option.some.inj h)
            rw [← hm] at hch
            rcases List.mem_cons.mp hch with hch | hch
            · exact ⟨.one p, List.mem_cons_self _ _, by rw [hch]; exact hpd⟩
            · obtain ⟨a', ha', hok⟩ := ih s' m' r' hma ch hch
              exact ⟨a', List.mem_cons_of_mem _ ha', hok⟩
        · rw [if_neg hpd] at h; simp at h
    | star p =>
      rw [matchAtoms] at h
      obtain ⟨v, m', hsplit, hchars, rest₂, hk₂⟩ :=
        tryBack_sound (matchAtoms as) _ _ m r h
      rw [hsplit] at hch
      rcases List.mem_append.mp hch with hch | hch
      · have h1 : ch ∈ (s.takeWhile p).reverse := hchars ch hch
        have h2 : ch ∈ s.takeWhile p := List.mem_reverse.mp h1
        exact ⟨.star p, List.mem_cons_self _ _, List.mem_takeWhile_imp h2⟩
      · obtain ⟨a', ha', hok⟩ := ih rest₂ m' r hk₂ ch hch
        exact ⟨a', List.mem_cons_of_mem _ ha', hok⟩
    | opt c =>
      cases s with
      | nil =>
        rw [matchAtoms] at h
        obtain ⟨a', ha', hok⟩ := ih [] m r h ch hch
        exact ⟨a', List.mem_cons_of_mem _ ha', hok⟩
      | cons d s' =>
        rw [matchAtoms] at h
        by_cases hdc : d = c
        · rw [if_pos hdc] at h
          cases hma : matchAtoms as s' with
          | none =>
            rw [hma] at h
            obtain ⟨a', ha', hok⟩ := ih (d :: s') m r h ch hch
            exact ⟨a', List.mem_cons_of_mem _ ha', hok⟩
          | some q =>
            obtain ⟨m', r'⟩ := q
            rw [hma] at h
            obtain ⟨hm, hr⟩ := Prod.mk.inj (Option.some.inj h)
            rw [← hm] at hch
            rcases List.mem_cons.mp hch with hch | hch
            · exact ⟨.opt c, List.mem_cons_self _ _, by rw [hch]; exact hdc⟩
            · obtain ⟨a', ha', hok⟩ := ih s' m' r' hma ch hch
              exact ⟨a', List.mem_cons_of_mem _ ha', hok⟩
        · rw [if_neg hdc] at h
          obtain ⟨a', ha', hok⟩ := ih (d :: s') m r h ch hch
          exact ⟨a', List.mem_cons_of_mem _ ha', hok⟩

theorem matchAtoms_lit_mem : ∀ (pat : Pattern) (s m r : Str),
    matchAtoms pat s = some (m, r) → ∀ c, RAtom.lit c ∈ pat → c ∈ m := by
  intro pat
  induction pat with
  | nil => intro s m r h c hc; simp at hc
  | cons a as ih =>
    intro s m r h c hc
    cases a with
    | lit c' =>
      cases s with
      | nil => simp [matchAtoms] at h
      | cons d s' =>
        rw [matchAtoms] at h
        by_cases hdc : d = c'
        · rw [if_pos hdc] at h
          cases hma : matchAtoms as s' with
          | none => rw [hma] at h; simp at h
          | some p =>
            obtain ⟨m', r'⟩ := p
            rw [hma] at h
            obtain ⟨hm, hr⟩ := Prod.mk.inj (Option.some.inj h)
            rw [← hm]
            rcases List.mem_cons.mp hc with hc | hc
            · obtain rfl : c = c' := by injection hc
              rw [hdc]
              exact List.mem_cons_self _ _
            · exact List.mem_cons_of_mem _ (ih s' m' r' hma c hc)
        · rw [if_neg hdc] at h; simp at h
    | one p =>
      cases s with
      | nil => simp [matchAtoms] at h
      | cons d s' =>
        rw [matchAtoms] at h
        by_cases hpd : p d = true
        · rw [if_pos hpd] at h
          cases hma : matchAtoms as s' with
          | none => rw [hma] at h; simp at h
          | some q =>
            obtain ⟨m', r'⟩ := q
            rw [hma] at h
            obtain ⟨hm, hr⟩ := Prod.mk.inj (Option.some.inj h)
            rw [← hm]
            rcases List.mem_cons.mp hc with hc | hc
            · exact absurd hc (by simp)
            · exact List.mem_cons_of_mem _ (ih s' m' r' hma c hc)
        · rw [if_neg hpd] at h; simp at h
    | star p =>
      rw [matchAtoms] at h
      obtain ⟨v, m', hsplit, hchars, rest₂, hk₂⟩ :=
        tryBack_sound (matchAtoms as) _ _ m r h
      have hc' : RAtom.lit c ∈ as := by
        rcases List.mem_cons.mp hc with hc | hc
        · exact absurd hc (by simp)
        · exact hc
      rw [hsplit]
      exact List.mem_append_right v (ih rest₂ m' r hk₂ c hc')
    | opt c' =>
      have hc' : RAtom.lit c ∈ as := by
        rcases List.mem_cons.mp hc with hc | hc
        · exact absurd hc (by simp)
        · exact hc
      cases s with
      | nil =>
        rw [matchAtoms] at h
        exact ih [] m r h c hc'
      | cons d s' =>
        rw [matchAtoms] at h
        by_cases hdc : d = c'
        · rw [if_pos hdc] at h
          cases hma : matchAtoms as s' with
          | none =>
            rw [hma] at h
            exact ih (d :: s') m r h c hc'
          | some q =>
            obtain ⟨m', r'⟩ := q
            rw [hma] at h
            obtain ⟨hm, hr⟩ := Prod.mk.inj (Option.some.inj h)
            rw [← hm]
            exact List.mem_cons_of_mem _ (ih s' m' r' hma c hc')
        · rw [if_neg hdc] at h
          exact ih (d :: s') m r h c hc'

theorem atomNoUnderscore_sound {a : RAtom} (ha : atomNoUnderscore a = true) {ch : Char}
    (hok : atomOK a ch) : ch ≠ '_' := by
  cases a with
  | lit c =>
    rw [atomOK] at hok
    rw [hok]
    exact fun he => by rw [he] at ha; simp [atomNoUnderscore] at ha
  | one p =>
    intro he
    rw [atomOK] at hok
    rw [he] at hok
    rw [atomNoUnderscore, hok] at ha
    simp at ha
  | star p =>
    intro he
    rw [atomOK] at hok
    rw [he] at hok
    rw [atomNoUnderscore, hok] at ha
    simp at ha
  | opt c =>
    rw [atomOK] at hok
    rw [hok]
    exact fun he => by rw [he] at ha; simp [atomNoUnderscore] at ha

theorem atomDotLit_sound {a : RAtom} (ha : atomDotLit a = true) : a = RAtom.lit '.' := by
  cases a with
  | lit c =>
    rw [atomDotLit] at ha
    rw [beq_iff_eq.mp ha]
  | one p => simp [atomDotLit] at ha
  | star p => simp [atomDotLit] at ha
  | opt c => simp [atomDotLit] at ha

theorem citation_patterns_no_underscore :
    CITATION_PATTERNS.all (fun pat => pat.all atomNoUnderscore) = true := by decide

theorem citation_patterns_dot :
    CITATION_PATTERNS.all (fun pat => pat.any atomDotLit) = true := by decide

/-- Every `re.finditer` match of a citation pattern contains a dot, is
nonempty, and contains no underscore. -/
theorem citation_match_good {pat : Pattern} (hpat : pat ∈ CITATION_PATTERNS) {s m : Str}
    (hm : m ∈ finditer pat s) : ('.' ∈ m) ∧ m ≠ [] ∧ (∀ ch ∈ m, ch ≠ '_') := by
  obtain ⟨u, r, hmatch⟩ := finditer_sound hm
  have hdot : '.' ∈ m := by
    have hall := citation_patterns_dot
    rw [List.all_eq_true] at hall
    have hany := hall pat hpat
    rw [List.any_eq_true] at hany
    obtain ⟨a, ha, hdotlit⟩ := hany
    have heq := atomDotLit_sound hdotlit
    rw [heq] at ha
    exact matchAtoms_lit_mem pat u m r hmatch '.' ha
  refine ⟨hdot, List.ne_nil_of_mem hdot, ?_⟩
  intro ch hch
  obtain ⟨a, ha, hok⟩ := matchAtoms_chars pat u m r hmatch ch hch
  have hall := citation_patterns_no_underscore
  rw [List.all_eq_true] at hall
  have hthis := hall pat hpat
  rw [List.all_eq_true] at hthis
  exact atomNoUnderscore_sound (hthis a ha) hok

/-! ## C1 — one protection step splits a plain segment around the match -/

theorem mem_of_getLast?_eq {l : Str} {a : Char} (h : l.getLast? = some a) : a ∈ l := by
  induction l with
  | nil => simp at h
  | cons c l' ih =>
    cases l' with
    | nil =>
      rw [List.getLast?_singleton] at h
      rw [Option.some.inj h]
      exact List.mem_cons_self _ _
    | cons d l'' =>
      rw [List.getLast?_cons_cons] at h
      exact List.mem_cons_of_mem _ (ih h)

theorem normT_inv_plain_ne {s : Str} {L : List Tok}
    (h : NormT (Tok.plain s :: L)) : s ≠ [] := by
  cases h with
  | plain s L hne hfree h' => exact hne

theorem replFirst_left_match {pat : Str} (rep : Str) (hne : pat ≠ []) (t : Str) :
    replFirst pat rep (pat ++ t) = rep ++ t := by
  cases pat with
  | nil => exact absurd rfl hne
  | cons p₀ ps =>
    show replFirst (p₀ :: ps) rep (p₀ :: (ps ++ t)) = _
    rw [replFirst_cons_eq, if_pos]
    · rw [show (p₀ :: (ps ++ t)).drop (p₀ :: ps).length = t from by
        rw [List.length_cons, List.drop_succ_cons, List.drop_left]]
    · rw [Bool.and_eq_true]
      exact ⟨List.isPrefixOf_iff_prefix.mpr ⟨t, rfl⟩, by simp⟩

theorem replFirst_plain_split (m rep : Str) (hm : m ≠ []) (hfree : ∀ ch ∈ m, ch ≠ '_') :
    ∀ (s t : Str), (∀ ch ∈ s, ch ≠ '_') → (t = [] ∨ t.head? = some '_') →
      (∃ s₁ s₂, s = s₁ ++ m ++ s₂ ∧
        replFirst m rep (s ++ t) = s₁ ++ rep ++ (s₂ ++ t)) ∨
      replFirst m rep (s ++ t) = s ++ replFirst m rep t := by
  intro s
  induction s with
  | nil => intro t _ _; exact Or.inr (by simp)
  | cons c s' ih =>
    intro t hsfree ht
    by_cases hpre : m <+: (c :: s') ++ t
    · left
      have hfits : ∃ s₂, c :: s' = m ++ s₂ := by
        by_cases hlen : m.length ≤ (c :: s').length
        · obtain ⟨s₂, h2⟩ := prefix_of_prefix_append hpre hlen
          exact ⟨s₂, h2.symm⟩
        · exfalso
          rcases prefix_append_cases hpre with h1 | h1
          · exact hlen h1.length_le
          · obtain ⟨m', hm'⟩ := h1
            have hm'pre : m' <+: t := by
              rw [← hm'] at hpre
              exact (List.prefix_append_right_inj (c :: s')).mp hpre
            have hm'ne : m' ≠ [] := by
              intro he
              rw [he, List.append_nil] at hm'
              exact hlen (by rw [← hm'])
            rcases ht with ht | ht
            · rw [ht] at hm'pre
              exact hm'ne (List.prefix_nil.mp hm'pre)
            · cases m' with
              | nil => exact hm'ne rfl
              | cons d m'' =>
                have hh : t.head? = some d := prefix_head hm'pre
                rw [ht] at hh
                have hd : '_' = d := Option.some.inj hh
                exact hfree d
                  (by rw [← hm']; exact List.mem_append_right _ (List.mem_cons_self d m''))
                  hd.symm
      obtain ⟨s₂, h2⟩ := hfits
      refine ⟨[], s₂, by rw [h2]; simp, ?_⟩
      rw [h2, List.append_assoc, replFirst_left_match rep hm (s₂ ++ t)]
      simp
    · rw [show (c :: s') ++ t = c :: (s' ++ t) from rfl,
        replFirst_cons_not_prefix (by rwa [List.cons_append] at hpre)]
      rcases ih t (fun ch hch => hsfree ch (List.mem_cons_of_mem c hch)) ht with
        ⟨s₁, s₂, hsplit, heq⟩ | heq
      · left
        refine ⟨c :: s₁, s₂, by rw [hsplit]; rfl, ?_⟩
        rw [heq]
        rfl
      · right
        rw [heq]
        rfl

/-- One `replFirst` with a citation match as the pattern maps a normal-form
rendering to a normal-form rendering, recording at most the new hole. -/
theorem replFirst_render_step (m : Str) (hmne : m ≠ []) (hdot : '.' ∈ m)
    (hfree : ∀ ch ∈ m, ch ≠ '_') (i j : ℕ) :
    ∀ L : List Tok, NormT L →
      ∃ L', replFirst m (placeholder i j) (renderP L) = renderP L' ∧ NormT L' ∧
        (NormH L → NormH L') ∧
        (∀ k ∈ holeKeys L', k = (i, j) ∨ k ∈ holeKeys L) ∧
        (∀ f : ℕ → ℕ → Str, f i j = m → renderF f L' = renderF f L) := by
  intro L
  induction L with
  | nil =>
    intro _
    exact ⟨[], rfl, NormT.nil, fun _ => NormH.nil, by simp [holeKeys_nil],
      fun f _ => rfl⟩
  | cons t L₂ ih =>
    intro hT
    cases t with
    | hole i' j' =>
      have hT₂ : NormT L₂ := normT_inv_hole hT
      obtain ⟨L₂', heq, hT', hH', hkeys, hf⟩ := ih hT₂
      refine ⟨Tok.hole i' j' :: L₂', ?_, NormT.hole _ _ _ hT',
        fun _ => NormH.hole _ _ _ hT', ?_, ?_⟩
      · rw [renderP_cons]
        show replFirst m _ (placeholder i' j' ++ renderP L₂) = _
        rw [replFirst_append_left _ _ ?skip, heq, renderP_cons]
        · rfl
        case skip =>
          intro v hv hvne hp
          rcases prefix_append_cases hp with h1 | h1
          · exact dot_not_mem_placeholder i' j' (hv.subset (h1.subset hdot))
          · have hl : v.getLast? = some '_' := by
              rw [suffix_getLast? hv hvne, placeholder_getLast]
            exact hfree '_' (h1.subset (mem_of_getLast?_eq hl)) rfl
      · intro k hk
        rw [holeKeys_cons_hole] at hk
        rcases List.mem_cons.mp hk with hk | hk
        · right; rw [holeKeys_cons_hole, hk]; exact List.mem_cons_self _ _
        · rcases hkeys k hk with h | h
          · exact Or.inl h
          · right; rw [holeKeys_cons_hole]; exact List.mem_cons_of_mem _ h
      · intro f hfij
        rw [renderF_cons_hole, renderF_cons_hole, hf f hfij]
    | plain s =>
      obtain ⟨hfree_s, hH₂⟩ := normT_inv_plain hT
      have hsne : s ≠ [] := normT_inv_plain_ne hT
      have hhead : renderP L₂ = [] ∨ (renderP L₂).head? = some '_' := by
        cases hH₂ with
        | nil => exact Or.inl rfl
        | hole i'' j'' L₃ h₃ =>
          right
          rw [renderP_cons,
            show (Tok.hole i'' j'').render = placeholder i'' j'' from rfl,
            placeholder_shape]
          rfl
      rcases replFirst_plain_split m (placeholder i j) hmne hfree s (renderP L₂)
        hfree_s hhead with ⟨s₁, s₂, hsplit, heq⟩ | heq
      · refine ⟨mkPlain s₁ (Tok.hole i j :: mkPlain s₂ L₂), ?_, ?_, ?_, ?_, ?_⟩
        · rw [renderP_cons]
          show replFirst m _ (s ++ renderP L₂) = _
          rw [heq, renderP_mkPlain, renderP_cons, renderP_mkPlain]
          rw [show (Tok.hole i j).render = placeholder i j from rfl]
          simp [List.append_assoc]
        · exact normT_mkPlain
            (fun ch hch => hfree_s ch (by
              rw [hsplit]
              exact List.mem_append_left _ (List.mem_append_left _ hch)))
            (NormH.hole _ _ _ (normT_mkPlain
              (fun ch hch => hfree_s ch (by
                rw [hsplit]
                exact List.mem_append_right _ hch))
              hH₂))
        · intro hHL
          cases hHL
        · intro k hk
          rw [holeKeys_mkPlain, holeKeys_cons_hole, holeKeys_mkPlain] at hk
          rcases List.mem_cons.mp hk with hk | hk
          · exact Or.inl hk
          · right; rw [holeKeys_cons_plain]; exact hk
        · intro f hfij
          rw [renderF_mkPlain, renderF_cons_hole, renderF_mkPlain,
            renderF_cons_plain, hfij, hsplit]
          simp [List.append_assoc]
      · have hT₂ : NormT L₂ := normH_normT hH₂
        obtain ⟨L₂', heq₂, hT', hH', hkeys, hf⟩ := ih hT₂
        have hH₂' : NormH L₂' := hH' hH₂
        refine ⟨Tok.plain s :: L₂', ?_, NormT.plain s L₂' hsne hfree_s hH₂', ?_, ?_, ?_⟩
        · rw [renderP_cons]
          show replFirst m _ (s ++ renderP L₂) = _
          rw [heq, heq₂, renderP_cons]
          rfl
        · intro hHL
          cases hHL
        · intro k hk
          rw [holeKeys_cons_plain] at hk
          rcases hkeys k hk with h | h
          · exact Or.inl h
          · right; rw [holeKeys_cons_plain]; exact h
        · intro f hfij
          rw [renderF_cons_plain, renderF_cons_plain, hf f hfij]

/-! ## C1 — specifications of the protection loops -/

theorem protectInner_spec (i : ℕ) :
    ∀ (ms : List Str) (j : ℕ) (L : List Tok), NormT L →
      (∀ m ∈ ms, m ≠ [] ∧ '.' ∈ m ∧ ∀ ch ∈ m, ch ≠ '_') →
      ∃ (L' : List Tok) (keyed : List ((ℕ × ℕ) × Str)),
        protectInner i ms j (renderP L) = (renderP L', keyed.map toEntry) ∧
        NormT L' ∧ (NormH L → NormH L') ∧
        keyed.map Prod.fst = (List.range' j ms.length).map (fun n => (i, n)) ∧
        keyed.map Prod.snd = ms ∧
        (∀ k ∈ holeKeys L', k ∈ (List.range' j ms.length).map (fun n => (i, n)) ∨
          k ∈ holeKeys L) ∧
        (∀ f : ℕ → ℕ → Str, (∀ kc ∈ keyed, f kc.1.1 kc.1.2 = kc.2) →
          renderF f L' = renderF f L) := by
  intro ms
  induction ms with
  | nil =>
    intro j L hT _
    exact ⟨L, [], rfl, hT, fun h => h, rfl, rfl, fun k hk => Or.inr hk, fun f _ => rfl⟩
  | cons m ms' ih =>
    intro j L hT hgood
    obtain ⟨hmne, hdot, hfree⟩ := hgood m (List.mem_cons_self _ _)
    obtain ⟨L₁, heq₁, hT₁, hH₁, hkeys₁, hf₁⟩ :=
      replFirst_render_step m hmne hdot hfree i j L hT
    obtain ⟨L', keyed', heq₂, hT', hH', hkfst, hksnd, hkeys', hf'⟩ :=
      ih (j + 1) L₁ hT₁ (fun m' hm' => hgood m' (List.mem_cons_of_mem _ hm'))
    have hstep : protectInner i (m :: ms') j (renderP L) =
        ((protectInner i ms' (j + 1) (replFirst m (placeholder i j) (renderP L))).1,
         (placeholder i j, m) ::
           (protectInner i ms' (j + 1) (replFirst m (placeholder i j) (renderP L))).2) :=
      rfl
    refine ⟨L', ((i, j), m) :: keyed', ?_, hT', fun hH => hH' (hH₁ hH), ?_, ?_, ?_, ?_⟩
    · rw [hstep, heq₁, heq₂]
      simp [toEntry]
    · rw [List.map_cons, hkfst, show (m :: ms').length = ms'.length + 1 from rfl,
        List.range'_succ, List.map_cons]
    · rw [List.map_cons, hksnd]
    · intro k hk
      rw [show (m :: ms').length = ms'.length + 1 from rfl, List.range'_succ,
        List.map_cons]
      rcases hkeys' k hk with h | h
      · exact Or.inl (List.mem_cons_of_mem _ h)
      · rcases hkeys₁ k h with h' | h'
        · rw [h']
          exact Or.inl (List.mem_cons_self _ _)
        · exact Or.inr h'
    · intro f hfall
      rw [hf' f (fun kc hkc => hfall kc (List.mem_cons_of_mem _ hkc)),
        hf₁ f (hfall ((i, j), m) (List.mem_cons_self _ _))]

theorem protectLoop_spec :
    ∀ (pats : List Pattern) (i : ℕ) (L : List Tok),
      (∀ pat ∈ pats, pat ∈ CITATION_PATTERNS) → NormT L →
      ∃ (L' : List Tok) (keyed : List ((ℕ × ℕ) × Str)),
        protectLoop pats i (renderP L) = (renderP L', keyed.map toEntry) ∧
        NormT L' ∧
        (∀ kc ∈ keyed, i ≤ kc.1.1) ∧
        (keyed.map Prod.fst).Nodup ∧
        (∀ kc ∈ keyed, kc.2 ≠ [] ∧ ∀ ch ∈ kc.2, ch ≠ '_') ∧
        (∀ k ∈ holeKeys L', k ∈ keyed.map Prod.fst ∨ k ∈ holeKeys L) ∧
        (∀ f : ℕ → ℕ → Str, (∀ kc ∈ keyed, f kc.1.1 kc.1.2 = kc.2) →
          renderF f L' = renderF f L) := by
  intro pats
  induction pats with
  | nil =>
    intro i L _ hT
    exact ⟨L, [], rfl, hT, by simp, by simp, by simp, fun k hk => Or.inr hk,
      fun f _ => rfl⟩
  | cons pat pats' ihp =>
    intro i L hpats hT
    have hgood : ∀ m ∈ finditer pat (renderP L),
        m ≠ [] ∧ '.' ∈ m ∧ ∀ ch ∈ m, ch ≠ '_' := by
      intro m hm
      obtain ⟨hdot, hne, hfree⟩ :=
        citation_match_good (hpats pat (List.mem_cons_self _ _)) hm
      exact ⟨hne, hdot, hfree⟩
    obtain ⟨L₁, keyed₁, heq₁, hT₁, hH₁, hkfst₁, hksnd₁, hkeys₁, hf₁⟩ :=
      protectInner_spec i (finditer pat (renderP L)) 0 L hT hgood
    obtain ⟨L', keyed₂, heq₂, hT', hbound₂, hnodup₂, hvals₂, hkeys₂, hf₂⟩ :=
      ihp (i + 1) L₁ (fun p hp => hpats p (List.mem_cons_of_mem _ hp)) hT₁
    have hstep : protectLoop (pat :: pats') i (renderP L) =
        ((protectLoop pats' (i + 1)
            (protectInner i (finditer pat (renderP L)) 0 (renderP L)).1).1,
         (protectInner i (finditer pat (renderP L)) 0 (renderP L)).2 ++
           (protectLoop pats' (i + 1)
             (protectInner i (finditer pat (renderP L)) 0 (renderP L)).1).2) := rfl
    refine ⟨L', keyed₁ ++ keyed₂, ?_, hT', ?_, ?_, ?_, ?_, ?_⟩
    · rw [hstep, heq₁]
      simp only []
      rw [heq₂, List.map_append]
    · intro kc hkc
      rcases List.mem_append.mp hkc with h | h
      · have hmem : kc.1 ∈ keyed₁.map Prod.fst := List.mem_map_of_mem _ h
        rw [hkfst₁] at hmem
        obtain ⟨n, hn, hkn⟩ := List.mem_map.mp hmem
        have : kc.1.1 = i := by rw [← hkn]
        exact le_of_eq this.symm
      · exact Nat.le_of_succ_le (hbound₂ kc h)
    · rw [List.map_append, List.nodup_append]
      refine ⟨?_, hnodup₂, ?_⟩
      · rw [hkfst₁]
        exact (List.nodup_range' _ _).map (fun a b hab => by
          injection hab with h1 h2)
      · intro k hk1 hk2
        rw [hkfst₁] at hk1
        obtain ⟨n, hn, hkn⟩ := List.mem_map.mp hk1
        obtain ⟨kc, hkc, hkck⟩ := List.mem_map.mp hk2
        have h1 : k.1 = i := by rw [← hkn]
        have h2 : i + 1 ≤ k.1 := by rw [← hkck]; exact hbound₂ kc hkc
        omega
    · intro kc hkc
      rcases List.mem_append.mp hkc with h | h
      · have hmem : kc.2 ∈ keyed₁.map Prod.snd := List.mem_map_of_mem _ h
        rw [hksnd₁] at hmem
        obtain ⟨hne, hdot, hfree⟩ := hgood kc.2 hmem
        exact ⟨hne, hfree⟩
      · exact hvals₂ kc h
    · intro k hk
      rw [List.map_append]
      rcases hkeys₂ k hk with h | h
      · exact Or.inl (List.mem_append_right _ h)
      · rcases hkeys₁ k h with h' | h'
        · rw [← hkfst₁] at h'
          exact Or.inl (List.mem_append_left _ h')
        · exact Or.inr h'
    · intro f hfall
      rw [hf₂ f (fun kc hkc => hfall kc (List.mem_append_right _ hkc)),
        hf₁ f (fun kc hkc => hfall kc (List.mem_append_left _ hkc))]

/-! ## C1 — the amended round-trip law -/

theorem find?_keyed_eq : ∀ {keyed : List ((ℕ × ℕ) × Str)}, (keyed.map Prod.fst).Nodup →
    ∀ kc ∈ keyed, keyed.find? (fun kc' => kc'.1 == kc.1) = some kc := by
  intro keyed
  induction keyed with
  | nil => intro _ kc h; simp at h
  | cons e keyed' ih =>
    intro hnd kc hkc
    rcases List.mem_cons.mp hkc with h | h
    · rw [h]
      exact List.find?_cons_of_pos _ (by simp)
    · have hne : e.1 ≠ kc.1 := by
        intro hcontra
        rw [List.map_cons] at hnd
        have hmem : e.1 ∈ keyed'.map Prod.fst := by
          rw [hcontra]
          exact List.mem_map_of_mem _ h
        exact (List.nodup_cons.mp hnd).1 hmem
      rw [List.find?_cons_of_neg _ (by simp [hne])]
      have hnd' : (keyed'.map Prod.fst).Nodup := by
        rw [List.map_cons] at hnd
        exact (List.nodup_cons.mp hnd).2
      exact ih hnd' kc h

/-- **C1 (amended).**  The citation-protection round-trip law holds for
every input text containing no underscore character (in particular, no
pre-existing placeholder token): `_restore_citations` applied to the output
of `_protect_citations` returns the original text. -/
theorem protect_restore_roundtrip (text : Str) (hfree : ∀ ch ∈ text, ch ≠ '_') :
    restore_citations (protect_citations text).1 (protect_citations text).2 = text := by
  have hT₀ : NormT (mkPlain text []) := normT_mkPlain hfree NormH.nil
  have hren₀ : renderP (mkPlain text []) = text := by
    rw [renderP_mkPlain, renderP_nil, List.append_nil]
  obtain ⟨L', keyed, heq, hT', hbound, hnodup, hvals, hkeys, hf⟩ :=
    protectLoop_spec CITATION_PATTERNS 0 (mkPlain text []) (fun p hp => hp) hT₀
  have heq' : protect_citations text = (renderP L', keyed.map toEntry) := by
    rw [protect_citations, ← hren₀]
    exact heq
  rw [heq']
  show List.foldl (fun t e => replAll e.1 e.2 t) (renderP L') (keyed.map toEntry) = text
  rw [restore_fold keyed L' (normT_plainsFree hT') (fun kc hkc => (hvals kc hkc).2)]
  have hcons : ∀ kc ∈ keyed,
      (fun a b => (((keyed.find? (fun kc' => kc'.1 == ((a, b) : ℕ × ℕ))).map
        Prod.snd).getD [])) kc.1.1 kc.1.2 = kc.2 := by
    intro kc hkc
    show (((keyed.find? (fun kc' => kc'.1 == ((kc.1.1, kc.1.2) : ℕ × ℕ))).map
      Prod.snd).getD []) = kc.2
    rw [show ((kc.1.1, kc.1.2) : ℕ × ℕ) = kc.1 from rfl]
    rw [find?_keyed_eq hnodup kc hkc]
    rfl
  rw [substAll_renderF
      (fun a b => (((keyed.find? (fun kc' => kc'.1 == ((a, b) : ℕ × ℕ))).map
        Prod.snd).getD [])) keyed L' ?cov hcons,
    hf (fun a b => (((keyed.find? (fun kc' => kc'.1 == ((a, b) : ℕ × ℕ))).map
        Prod.snd).getD [])) hcons,
    renderF_mkPlain, renderF_nil, List.append_nil]
  case cov =>
    intro k hk
    rcases hkeys k hk with h | h
    · exact h
    · rw [holeKeys_mkPlain, holeKeys_nil] at h
      exact absurd h (List.not_mem_nil k)

/-- Witness for the amended C1 round-trip at a concrete underscore-free
text containing citations. -/
theorem protect_restore_roundtrip_witness :
    (∀ ch ∈ "See Brown v. Board, 347 U.S. 483 (1954).".data, ch ≠ '_') ∧
    restore_citations
        (protect_citations "See Brown v. Board, 347 U.S. 483 (1954).".data).1
        (protect_citations "See Brown v. Board, 347 U.S. 483 (1954).".data).2 =
      "See Brown v. Board, 347 U.S. 483 (1954).".data :=
  ⟨by decide, protect_restore_roundtrip _ (by decide)⟩
